import Mathlib

/-!
Verification of the mergefs repository: a merged logical byte store backed by
two append-only shard logs.  Each Go function of the package is embedded as an
executable Lean definition over in-memory byte lists; machine integers are
modelled as `Nat`/`Int` (the only place where 64-bit wrap-around is observable
on realistic inputs, the `uint64`-conversion of a logical write offset, keeps
an explicit `% 2^64`).  Panics of the Go read path (out-of-range slice
indexing) are modelled by `Option`, with `none` for a panic.
-/

namespace Mergefs

/-- Little-endian encoding of `x` into `k` bytes, least significant first
(the on-disk header encoding used by `binary.LittleEndian.PutUint64`,
with `k = 8`). -/
def leBytes : Nat → Nat → List Nat
  | 0, _ => []
  | k + 1, x => (x % 256) :: leBytes k (x / 256)

/-- Little-endian decoding of a byte list (inverse of `leBytes`,
as `binary.LittleEndian.Uint64` with 8 bytes). -/
def leVal : List Nat → Nat
  | [] => 0
  | b :: rest => b + 256 * leVal rest

/-- Read `size` bytes of `file` starting at `pos`, padding with `0` past the
end of the file; this models `make([]byte, size)` followed by
`os.File.ReadAt`, which fills only the available bytes and leaves the
zero-initialised remainder. -/
def readBytes (file : List Nat) (pos size : Nat) : List Nat :=
  (List.range size).map fun i => file.getD (pos + i) 0

/-- Reduction of an `int64` logical offset to the `uint64` stored in a frame
header (`uint64(off)` in Go). -/
def wrap64 (x : Int) : Nat := (x % (2 ^ 64 : Int)).toNat

/-- Reinterpretation of the low 64 bits of an integer as a signed `int64`:
the value of Go's `int64(u)` for a `uint64` operand `u`, and more generally
of any `int64`-typed expression whose operands are reduced modulo `2^64`. -/
def toInt64 (x : Int) : Int :=
  if x % (2 ^ 64 : Int) < 2 ^ 63 then x % (2 ^ 64 : Int)
  else x % (2 ^ 64 : Int) - 2 ^ 64

/-- The in-memory frame record `seg` of the Go code: logical offset, payload
length, storage position of the payload, and (for query results only) the
materialized payload bytes.  Descriptors held in a shard's index carry
`data = []`. -/
structure Seg where
  off : Nat
  size : Nat
  pos : Nat
  data : List Nat
deriving DecidableEq, Repr, Inhabited

/-- The comparison of the back-to-front merge loop of `mergeSegs`:
`m[i].off > n[j].off || m[i].off == n[j].off && (m[i].size == n[j].size ||
m[i].size > n[j].size)`. -/
def segGE (x y : Seg) : Bool :=
  x.off > y.off || (x.off == y.off && (x.size == y.size || x.size > y.size))

/-- Functional form of the in-place loop of `mergeSegs`: the first argument
counts the loop steps left (the loop runs at most once per input element, so
the callers pass the combined input length, which is never exhausted; the
fuel-0 arm is dead code), the next two are the two input slices reversed (the
Go loop walks both from their last elements), `acc` is the already-filled
tail of the output.  Whichever tail element satisfies `segGE` is placed at
the current end of the output; when one side is exhausted the remainder of
the other side stays in front (the Go code leaves leftover `m[0..i]` in place
and copies leftover `n[0..j]` down). -/
def mergeSegsAux : Nat → List Seg → List Seg → List Seg → List Seg
  | 0, mrev, nrev, acc => mrev.reverse ++ nrev.reverse ++ acc
  | _ + 1, [], nrev, acc => nrev.reverse ++ acc
  | _ + 1, mrev, [], acc => mrev.reverse ++ acc
  | fuel + 1, x :: mrev, y :: nrev, acc =>
    if segGE x y then mergeSegsAux fuel mrev (y :: nrev) (x :: acc)
    else mergeSegsAux fuel (x :: mrev) nrev (y :: acc)

/-- The merge engine `mergeSegs` of the Go code: empty-input shortcuts, then
the longer input becomes `m` and the shorter `n`, and the two are merged from
their tails. -/
def mergeSegs (a b : List Seg) : List Seg :=
  if a.isEmpty then b
  else if b.isEmpty then a
  else if a.length < b.length then mergeSegsAux (a.length + b.length) b.reverse a.reverse []
  else mergeSegsAux (a.length + b.length) a.reverse b.reverse []

/-- Go's `sort.Search` loop: binary search for the least index in `[i, j)`
satisfying `p`, returning `j` when none does (only indices below the initial
`j` are ever evaluated).  The first argument counts the iterations left; the
interval shrinks every iteration, so the caller's `j + 1` is never exhausted
and the fuel-0 arm is dead code. -/
def sortSearchLoop (p : Nat → Bool) : Nat → Nat → Nat → Nat
  | 0, i, _ => i
  | fuel + 1, i, j =>
    if i < j then
      if p ((i + j) / 2) then sortSearchLoop p fuel i ((i + j) / 2)
      else sortSearchLoop p fuel ((i + j) / 2 + 1) j
    else i

/-- In-memory model of one shard (`SegFile` in the Go code): the backing
file's bytes, the append cursor `off`, the `size` field maintained by replay
and writes, the descriptor list, and whether the handle has been closed. -/
structure SegFile where
  file : List Nat
  off : Nat
  size : Nat
  segs : List Seg
  closed : Bool
deriving DecidableEq, Repr, Inhabited

/-- The forward scan of `SegFile.ReadAt` starting at the index chosen by the
binary search: descriptors with `int64(s.off+s.size) <= off` (the sum taken
in `uint64`, then reinterpreted as `int64`) are skipped (`continue`), the
first descriptor with `int64(s.off) >= off+size` stops the scan (`break`),
every other descriptor is returned with its payload read back from the
backing file. -/
def queryScan (file : List Nat) (off size : Int) : List Seg → List Seg
  | [] => []
  | s :: rest =>
    if toInt64 ((s.off : Int) + (s.size : Int)) ≤ off then queryScan file off size rest
    else if toInt64 (s.off : Int) ≥ off + size then []
    else { s with data := readBytes file s.pos s.size } :: queryScan file off size rest

/-- The query `SegFile.ReadAt(off, size)`: `sort.Search` for the first
descriptor with `segs[i].off > uint64(off)` (an unsigned comparison, so a
negative `off` wraps to a huge value), back up one position (clamped at 0),
then the forward scan. -/
def segFileReadAt (f : SegFile) (off size : Int) : List Seg :=
  let idx := sortSearchLoop (fun i => decide ((f.segs.getD i default).off > wrap64 off))
    (f.segs.length + 1) 0 f.segs.length
  let start := idx - 1
  queryScan f.file off size (f.segs.drop start)

/-- Overwrite `b` starting at position `pos` with `src` (the effect of Go's
`copy(b[pos:pos+len(src)], src)` when `pos + len(src) ≤ len(b)`, the only way
the code below uses it). -/
def overwrite (b : List Nat) (pos : Nat) (src : List Nat) : List Nat :=
  b.take pos ++ src ++ b.drop (pos + src.length)

/-- Result of a positioned write on the backing store (`os.File.WriteAt`):
number of bytes written and whether it succeeded.  The store is external to
the package; a failed write is modelled by `ok = false`. -/
structure WriteRes where
  n : Nat
  ok : Bool
deriving DecidableEq, Repr

/-- The shard append `SegFile.WriteAt`, parametrised by the outcome `res` the
backing store reports for the payload write (the header write's result is
discarded by the Go code, so the header bytes are modelled as landing).  Note
the code appends the descriptor and advances `off` and `size` regardless of
`res`: it returns `(res.n, error?)` with the error exactly when `res.ok` is
false. -/
def segFileWriteAtRes (f : SegFile) (b : List Nat) (off : Int) (res : WriteRes) :
    SegFile × Nat × Bool :=
  let s : Seg := { off := wrap64 off, size := b.length, pos := f.off + 16, data := [] }
  let file1 := overwrite (f.file ++ List.replicate ((f.off + 16) - f.file.length) 0) f.off
    (leBytes 8 s.off ++ leBytes 8 s.size)
  let file2 := overwrite (file1 ++ List.replicate ((s.pos + res.n) - file1.length) 0) s.pos
    (b.take res.n)
  ({ f with
      file := file2
      segs := f.segs ++ [s]
      off := f.off + 16 + s.size
      size := f.size + s.size }, res.n, !res.ok)

/-- The shard append `SegFile.WriteAt` when the backing store accepts the full
payload (the in-memory backing store of this model never fails). -/
def segFileWriteAt (f : SegFile) (b : List Nat) (off : Int) : SegFile × Nat :=
  let r := segFileWriteAtRes f b off ⟨b.length, true⟩
  (r.1, r.2.1)

/-- Closing a shard (`SegFile.Close` closes the backing `os.File`, which
errors when already closed).  Returns the new state and `true` when an error
occurred. -/
def segFileClose (f : SegFile) : SegFile × Bool :=
  if f.closed then (f, true) else ({ f with closed := true }, false)

/-- The replay loop of `OpenSegFile`: starting at byte `pos`, read a 16-byte
header (stop cleanly when fewer than 16 bytes remain), decode offset and
length, record a descriptor whose payload starts right after the header, and
continue after the payload.  Returns the descriptors, the final append cursor
and the final `size` field (the end of the last frame replayed).  The first
argument counts the iterations left; every iteration advances `pos` by at
least 16 bytes, so the caller's `file.length + 1` is never exhausted and the
fuel-0 arm is dead code. -/
def replayLoop (file : List Nat) : Nat → Nat → Nat → List Seg × Nat × Nat
  | 0, pos, size => ([], pos, size)
  | fuel + 1, pos, size =>
    if pos + 16 ≤ file.length then
      let o := leVal ((file.drop pos).take 8)
      let sz := leVal ((file.drop (pos + 8)).take 8)
      let r := replayLoop file fuel (pos + 16 + sz) (o + sz)
      (⟨o, sz, pos + 16, []⟩ :: r.1, r.2)
    else ([], pos, size)

/-- Opening a shard (`OpenSegFile`) over the given backing bytes: replay the
header stream from position 0. -/
def openSegFile (file : List Nat) : SegFile :=
  let r := replayLoop file (file.length + 1) 0 0
  { file := file, off := r.2.1, size := r.2.2, segs := r.1, closed := false }

/-- In-memory model of the merged file (`File` in the Go code): the shard
list (two shards in the package) and the tracked logical size. -/
structure File where
  files : List SegFile
  size : Int
deriving DecidableEq, Repr, Inhabited

/-- Opening the merged store (`OpenFile`) over the given per-shard backing
bytes: open every shard and keep the largest shard `size`. -/
def openFile (data : List (List Nat)) : File :=
  let fs := data.map openSegFile
  { files := fs, size := fs.foldl (fun a f => if (f.size : Int) > a then (f.size : Int) else a) 0 }

/-- The merged write `File.WriteAt`: the shard picked by `rand.Intn` is made
an explicit argument `idx`; the chosen shard's append runs and the store size
grows by the payload length (the in-memory backing store never fails, so the
error return of the Go code is always nil here). -/
def fileWriteAt (f : File) (idx : Nat) (b : List Nat) (off : Int) : File × Nat :=
  let r := segFileWriteAt (f.files.getD idx default) b off
  ({ files := f.files.set idx r.1, size := f.size + b.length }, r.2)

/-- The copy loop of `File.ReadAt` over the merged frame sequence.  `b` is the
caller's buffer, `off` the current read cursor, `n` the bytes filled so far.
Go computes `segOff := off - int64(s.off)` and
`segRemain := int(s.size - uint64(segOff))`: the subtraction is done in
`uint64` and the result reinterpreted as a signed machine integer, which is
`toInt64` of the plain difference (congruent modulo `2^64`).  A negative
`readSize` makes `b[n : n+readSize]` panic and a negative `segOff` (or one
past `len(s.data)`) makes `s.data[segOff:]` panic; both are modelled by
`none`. -/
def copyLoop : List Seg → List Nat → Int → Nat → Option (Nat × List Nat)
  | [], b, _, n => some (n, b)
  | s :: rest, b, off, n =>
    if n < b.length then
      let segOff : Int := off - toInt64 (s.off : Int)
      let segRemain : Int := toInt64 ((s.size : Int) - segOff)
      let readSize : Int :=
        if segRemain > (b.length : Int) - (n : Int) then (b.length : Int) - (n : Int)
        else segRemain
      if readSize < 0 then none
      else if segOff < 0 then none
      else if (s.data.length : Int) < segOff then none
      else
        let num : Nat := min readSize.toNat (s.data.length - segOff.toNat)
        copyLoop rest (overwrite b n ((s.data.drop segOff.toNat).take num)) (off + num) (n + num)
    else some (n, b)

/-- The merged read `File.ReadAt` over a caller buffer of length `blen`:
past-size reads return end-of-data immediately; otherwise every shard is
queried, the per-shard results are merged pairwise, and the copy loop fills
the buffer.  The result is `(bytes read, buffer contents, EOF?)`, or `none`
when the copy loop panics.  The buffer starts zeroed (its prior contents are
irrelevant to every property stated below). -/
def fileReadAt (f : File) (blen : Nat) (off : Int) : Option (Nat × List Nat × Bool) :=
  if off > f.size then some (0, List.replicate blen 0, true)
  else
    let segs := f.files.foldl (fun acc sf => mergeSegs acc (segFileReadAt sf off blen)) []
    (copyLoop segs (List.replicate blen 0) off 0).map fun r => (r.1, r.2, false)

/-- The merged close `File.Close`: shards are closed in order and the loop
returns at the first error, leaving the remaining shards untouched.  Returns
the shard states after the call and whether an error was returned. -/
def fileClose : List SegFile → List SegFile × Bool
  | [] => ([], false)
  | f :: rest =>
    let r := segFileClose f
    if r.2 then (r.1 :: rest, true)
    else
      let rr := fileClose rest
      (r.1 :: rr.1, rr.2)

/-- A sequence of contiguous logical writes: each entry names the shard that
`rand.Intn` picked and the payload; every write starts exactly where the
previous one ended, the first at logical offset `base`. -/
def seqWrites (f : File) (base : Nat) : List (Nat × List Nat) → File
  | [] => f
  | (i, b) :: rest => seqWrites (fileWriteAt f i b base).1 (base + b.length) rest

/-- Total number of payload bytes in a write sequence. -/
def totalLen (ws : List (Nat × List Nat)) : Nat :=
  (ws.map fun w => w.2.length).sum

/-- Concatenation of the payloads of a write sequence. -/
def concatPayloads (ws : List (Nat × List Nat)) : List Nat :=
  (ws.map fun w => w.2).flatten

/-- A fresh two-shard merged store over empty backing files. -/
def freshFile : File := openFile [[], []]

/-- A frame materialized from the backing file (the `cp.data = b` step of the
query). -/
def fill (file : List Nat) (s : Seg) : Seg :=
  { s with data := readBytes file s.pos s.size }

/-- Whether a frame's interval `[off, off+size)` intersects the query window
`[woff, woff+wsize)` (for nonempty frames and windows this is ordinary
interval intersection). -/
def segIntersects (woff wsize : Int) (s : Seg) : Bool :=
  decide (woff < (s.off : Int) + s.size) && decide ((s.off : Int) < woff + wsize)

/-- The storage-position invariant of a shard's descriptor list: the first
descriptor's payload sits at byte `p` of the backing file and each subsequent
payload starts 16 bytes after the end of the previous payload. -/
def posOk : List Seg → Nat → Prop
  | [], _ => True
  | s :: rest, p => s.pos = p ∧ posOk rest (p + 16 + s.size)

/-- Sum over a descriptor list of header size plus payload length (the append
cursor of a shard holding exactly these frames). -/
def cursorSum (l : List Seg) : Nat :=
  (l.map fun s => 16 + s.size).sum

/-- End position of the last frame of a descriptor list (the `size` a replay
of the shard computes), 0 for an empty list. -/
def lastEnd (l : List Seg) : Nat :=
  match l.getLast? with
  | none => 0
  | some s => s.off + s.size

/-- A write annotated with its absolute logical offset: shard index, offset,
payload. -/
structure WRec where
  sh : Nat
  off : Nat
  payload : List Nat
deriving DecidableEq, Repr

/-- Annotate a contiguous write sequence with absolute offsets starting at
`base`. -/
def annot (base : Nat) : List (Nat × List Nat) → List WRec
  | [] => []
  | (i, b) :: rest => ⟨i, base, b⟩ :: annot (base + b.length) rest

/-- The (offset, payload) pairs of the writes landing on shard `i`. -/
def proj (i : Nat) (l : List WRec) : List (Nat × List Nat) :=
  l.filterMap fun r => if r.sh = i then some (r.off, r.payload) else none

/-- One on-disk record: 16-byte header followed by the payload. -/
def record (o : Nat) (b : List Nat) : List Nat :=
  leBytes 8 o ++ leBytes 8 b.length ++ b

/-- Backing bytes of a shard holding the given writes in order. -/
def buildFile : List (Nat × List Nat) → List Nat
  | [] => []
  | (o, b) :: rest => record o b ++ buildFile rest

/-- Descriptor list of a shard holding the given writes, the first record
starting at byte `cur` of the backing file. -/
def buildSegs (cur : Nat) : List (Nat × List Nat) → List Seg
  | [] => []
  | (o, b) :: rest => ⟨o, b.length, cur + 16, []⟩ :: buildSegs (cur + 16 + b.length) rest

/-- Like `buildSegs` but with each frame carrying its payload (the shape of a
query result). -/
def buildSegsD (cur : Nat) : List (Nat × List Nat) → List Seg
  | [] => []
  | (o, b) :: rest => ⟨o, b.length, cur + 16, b⟩ :: buildSegsD (cur + 16 + b.length) rest

/-- The payload-carrying frames of a two-shard store in global write order:
`c0` and `c1` are the running append cursors of the two shards. -/
def buildAll (c0 c1 : Nat) : List WRec → List Seg
  | [] => []
  | r :: rest =>
    if r.sh = 0 then
      ⟨r.off, r.payload.length, c0 + 16, r.payload⟩ :: buildAll (c0 + 16 + r.payload.length) c1 rest
    else
      ⟨r.off, r.payload.length, c1 + 16, r.payload⟩ :: buildAll c0 (c1 + 16 + r.payload.length) rest

/-- Folding the shard append over a list of (offset, payload) writes. -/
def writeShard (f : SegFile) : List (Nat × List Nat) → SegFile
  | [] => f
  | (o, b) :: rest => writeShard (segFileWriteAt f b o).1 rest

/-- Total payload size of a frame sequence. -/
def segsTotal (l : List Seg) : Nat :=
  (l.map fun s => s.size).sum

/-- Concatenation of the payloads of a frame sequence. -/
def concatData (l : List Seg) : List Nat :=
  (l.map fun s => s.data).flatten

theorem leBytes_length (k x : Nat) : (leBytes k x).length = k := by
  induction k generalizing x with
  | zero => rfl
  | succ k ih => simp [leBytes, ih]

theorem readBytes_eq (file : List Nat) (pos size : Nat) (h : pos + size ≤ file.length) :
    readBytes file pos size = (file.drop pos).take size := by
  induction size generalizing pos with
  | zero => simp [readBytes]
  | succ k ih =>
    have hp : pos < file.length := by omega
    rw [List.drop_eq_getElem_cons hp, List.take_succ_cons]
    have : readBytes file pos (k + 1) = file.getD pos 0 :: readBytes file (pos + 1) k := by
      simp only [readBytes, List.range_succ_eq_map, List.map_cons, List.map_map]
      congr 1
      refine List.map_congr_left fun i hi => ?_
      simp only [Function.comp_apply]
      congr 1
      omega
    rw [this, ih (pos + 1) (by omega)]
    rw [List.getD_eq_getElem _ _ hp]

theorem overwrite_length (b src : List Nat) (pos : Nat) (h : pos + src.length ≤ b.length) :
    (overwrite b pos src).length = b.length := by
  simp only [overwrite, List.length_append, List.length_take, List.length_drop]
  omega

theorem segGE_off_ge (x y : Seg) (h : segGE x y = true) : y.off ≤ x.off := by
  simp only [segGE, Bool.or_eq_true, decide_eq_true_eq, Bool.and_eq_true, beq_iff_eq] at h
  omega

theorem segGE_off_le (x y : Seg) (h : ¬segGE x y = true) : x.off ≤ y.off := by
  simp only [segGE, Bool.or_eq_true, decide_eq_true_eq, Bool.and_eq_true, beq_iff_eq,
    not_or, not_and] at h
  omega

theorem permOfMultisetEq {L R : List Seg} (h : (↑L : Multiset Seg) = ↑R) : List.Perm L R :=
  Multiset.coe_eq_coe.1 h

theorem mergeSegsAux_perm (fuel : Nat) (mrev nrev acc : List Seg) :
    List.Perm (mergeSegsAux fuel mrev nrev acc) (mrev ++ nrev ++ acc) := by
  induction fuel, mrev, nrev, acc using mergeSegsAux.induct with
  | case1 mrev nrev acc =>
    rw [mergeSegsAux]
    exact ((List.reverse_perm mrev).append (List.reverse_perm nrev)).append_right acc
  | case2 fuel nrev acc =>
    rw [mergeSegsAux]
    refine ((List.reverse_perm nrev).append_right acc).trans (permOfMultisetEq ?_)
    simp
  | case3 fuel mrev acc h =>
    cases mrev with
    | nil => exact absurd rfl h
    | cons z rest =>
      rw [mergeSegsAux]
      · refine ((List.reverse_perm (z :: rest)).append_right acc).trans (permOfMultisetEq ?_)
        simp
      · exact h
  | case4 fuel x mrev y nrev acc hge ih =>
    rw [mergeSegsAux, if_pos hge]
    refine ih.trans (permOfMultisetEq ?_)
    simp only [← Multiset.coe_add]
    simp only [← Multiset.cons_coe]
    simp only [← Multiset.singleton_add]
    abel
  | case5 fuel x mrev y nrev acc hge ih =>
    rw [mergeSegsAux, if_neg hge]
    refine ih.trans (permOfMultisetEq ?_)
    simp only [← Multiset.coe_add]
    simp only [← Multiset.cons_coe]
    simp only [← Multiset.singleton_add]
    abel

theorem mergeSegsAux_sorted (fuel : Nat) (mrev nrev acc : List Seg) :
    mrev.length + nrev.length ≤ fuel →
    List.Pairwise (fun x y => y.off ≤ x.off) mrev →
    List.Pairwise (fun x y => y.off ≤ x.off) nrev →
    List.Pairwise (fun x y => x.off ≤ y.off) acc →
    (∀ x ∈ mrev, ∀ y ∈ acc, x.off ≤ y.off) →
    (∀ x ∈ nrev, ∀ y ∈ acc, x.off ≤ y.off) →
    List.Pairwise (fun x y => x.off ≤ y.off) (mergeSegsAux fuel mrev nrev acc) := by
  induction fuel, mrev, nrev, acc using mergeSegsAux.induct with
  | case1 mrev nrev acc =>
    intro hfuel hm hn hacc hma hna
    have hm0 : mrev = [] := by
      cases mrev with
      | nil => rfl
      | cons z zs => simp at hfuel
    have hn0 : nrev = [] := by
      cases nrev with
      | nil => rfl
      | cons z zs => simp at hfuel
    subst hm0
    subst hn0
    rw [mergeSegsAux]
    simpa using hacc
  | case2 fuel nrev acc =>
    intro hfuel hm hn hacc hma hna
    rw [mergeSegsAux, List.pairwise_append]
    refine ⟨List.pairwise_reverse.2 hn, hacc, ?_⟩
    intro a ha b hb
    exact hna a (List.mem_reverse.1 ha) b hb
  | case3 fuel mrev acc h =>
    intro hfuel hm hn hacc hma hna
    cases mrev with
    | nil => exact absurd rfl h
    | cons z rest =>
      rw [mergeSegsAux]
      · rw [List.pairwise_append]
        refine ⟨List.pairwise_reverse.2 hm, hacc, ?_⟩
        intro a ha b hb
        exact hma a (List.mem_reverse.1 ha) b hb
      · exact h
  | case4 fuel x mrev y nrev acc hge ih =>
    intro hfuel hm hn hacc hma hna
    rw [mergeSegsAux, if_pos hge]
    rw [List.pairwise_cons] at hm
    refine ih (by simp at hfuel ⊢; omega) hm.2 hn ?_ ?_ ?_
    · rw [List.pairwise_cons]
      exact ⟨fun z hz => hma x (List.mem_cons_self _ _) z hz, hacc⟩
    · intro a ha b hb
      rcases List.mem_cons.1 hb with rfl | hb
      · exact hm.1 a ha
      · exact hma a (List.mem_cons_of_mem _ ha) b hb
    · intro a ha b hb
      rcases List.mem_cons.1 hb with rfl | hb
      · rcases List.mem_cons.1 ha with rfl | ha
        · exact segGE_off_ge _ _ hge
        · exact le_trans ((List.pairwise_cons.1 hn).1 a ha) (segGE_off_ge _ _ hge)
      · exact hna a ha b hb
  | case5 fuel x mrev y nrev acc hge ih =>
    intro hfuel hm hn hacc hma hna
    rw [mergeSegsAux, if_neg hge]
    rw [List.pairwise_cons] at hn
    refine ih (by simp at hfuel ⊢; omega) hm hn.2 ?_ ?_ ?_
    · rw [List.pairwise_cons]
      exact ⟨fun z hz => hna y (List.mem_cons_self _ _) z hz, hacc⟩
    · intro a ha b hb
      rcases List.mem_cons.1 hb with rfl | hb
      · rcases List.mem_cons.1 ha with rfl | ha
        · exact segGE_off_le _ _ hge
        · exact le_trans ((List.pairwise_cons.1 hm).1 a ha) (segGE_off_le _ _ hge)
      · exact hma a ha b hb
    · intro a ha b hb
      rcases List.mem_cons.1 hb with rfl | hb
      · exact hn.1 a ha
      · exact hna a (List.mem_cons_of_mem _ ha) b hb

theorem mergeSegs_perm (a b : List Seg) : List.Perm (mergeSegs a b) (a ++ b) := by
  rw [mergeSegs]
  split
  · next h => simp [List.isEmpty_iff.1 h]
  · split
    · next h => simp [List.isEmpty_iff.1 h]
    · split
      · refine (mergeSegsAux_perm _ _ _ _).trans (permOfMultisetEq ?_)
        simp only [← Multiset.coe_add]
        simp [add_comm]
      · refine (mergeSegsAux_perm _ _ _ _).trans (permOfMultisetEq ?_)
        simp only [← Multiset.coe_add]
        simp

theorem sorted_lt_of_le_nodup (l : List Seg)
    (h1 : List.Pairwise (fun x y => x.off ≤ y.off) l)
    (h2 : List.Pairwise (fun x y : Seg => x.off ≠ y.off) l) :
    List.Pairwise (fun x y => x.off < y.off) l :=
  (h1.and h2).imp fun h => lt_of_le_of_ne h.1 h.2

theorem eq_of_perm_of_sorted_off {l₁ l₂ : List Seg}
    (hp : List.Perm l₁ l₂)
    (h1 : List.Pairwise (fun x y : Seg => x.off < y.off) l₁)
    (h2 : List.Pairwise (fun x y : Seg => x.off < y.off) l₂) : l₁ = l₂ := by
  haveI : IsAntisymm Seg (fun x y : Seg => x.off < y.off) :=
    ⟨fun a b h h' => absurd (lt_trans h h') (lt_irrefl _)⟩
  exact List.eq_of_perm_of_sorted hp h1 h2

theorem mergeSegs_sorted (a b : List Seg)
    (ha : List.Pairwise (fun x y => x.off ≤ y.off) a)
    (hb : List.Pairwise (fun x y => x.off ≤ y.off) b) :
    List.Pairwise (fun x y => x.off ≤ y.off) (mergeSegs a b) := by
  rw [mergeSegs]
  split
  · exact hb
  · split
    · exact ha
    · split
      · refine mergeSegsAux_sorted _ _ _ _ (by simp only [List.length_reverse]; omega)
          ?_ ?_ ?_ ?_ ?_ <;> simp [List.pairwise_reverse, ha, hb]
      · refine mergeSegsAux_sorted _ _ _ _ (by simp only [List.length_reverse]; omega)
          ?_ ?_ ?_ ?_ ?_ <;> simp [List.pairwise_reverse, ha, hb]

theorem sortSearchLoop_spec (p : Nat → Bool) (fuel i j : Nat) :
    j - i < fuel →
    (∀ a b, a ≤ b → b < j → p a = true → p b = true) → i ≤ j →
    i ≤ sortSearchLoop p fuel i j ∧ sortSearchLoop p fuel i j ≤ j ∧
    (∀ k, i ≤ k → k < sortSearchLoop p fuel i j → p k = false) ∧
    (∀ k, sortSearchLoop p fuel i j ≤ k → k < j → p k = true) := by
  induction fuel, i, j using sortSearchLoop.induct p with
  | case1 i x =>
    intro hfuel
    omega
  | case2 fuel i j hlt hp ih =>
    intro hfuel hmono _
    rw [sortSearchLoop, if_pos hlt, if_pos hp]
    have hm1 : i ≤ (i + j) / 2 := by omega
    have hm2 : (i + j) / 2 < j := by omega
    obtain ⟨h1, h2, h3, h4⟩ := ih (by omega) (fun a b hab hb => hmono a b hab (by omega)) hm1
    refine ⟨h1, by omega, h3, ?_⟩
    intro k hk1 hk2
    by_cases hcmp : k < (i + j) / 2
    · exact h4 k hk1 hcmp
    · exact hmono ((i + j) / 2) k (by omega) hk2 hp
  | case3 fuel i j hlt hp ih =>
    intro hfuel hmono _
    rw [sortSearchLoop, if_pos hlt, if_neg hp]
    obtain ⟨h1, h2, h3, h4⟩ := ih (by omega) hmono (by omega)
    refine ⟨by omega, h2, ?_, h4⟩
    intro k hk1 hk2
    by_cases hcmp : (i + j) / 2 + 1 ≤ k
    · exact h3 k hcmp hk2
    · cases hpk : p k with
      | false => rfl
      | true => exact absurd (hmono k ((i + j) / 2) (by omega) (by omega) hpk) hp
  | case4 fuel i j hlt =>
    intro _ _ hij
    rw [sortSearchLoop, if_neg hlt]
    exact ⟨le_refl _, hij, fun k hk1 hk2 => absurd hk2 (by omega), fun k hk1 hk2 => by omega⟩

theorem toInt64_eq_self (x : Int) (h1 : -(2 ^ 63) ≤ x) (h2 : x < 2 ^ 63) :
    toInt64 x = x := by
  rw [toInt64]
  split <;> omega

theorem toInt64_coe (m : Nat) (h : m < 2 ^ 63) : toInt64 (m : Int) = m :=
  toInt64_eq_self _ (by omega) (by omega)

theorem wrap64_gt_iff (u : Nat) (off : Int) (h1 : 0 ≤ off) (h2 : off < 2 ^ 64) :
    u > wrap64 off ↔ (u : Int) > off := by
  rw [wrap64]
  omega

theorem queryScan_filter (file : List Nat) (off size : Int) (l : List Seg)
    (hsort : List.Pairwise (fun x y : Seg => x.off ≤ y.off) l)
    (hbnd : ∀ s ∈ l, s.off + s.size < 2 ^ 63) :
    queryScan file off size l = (l.filter (segIntersects off size)).map (fill file) := by
  induction l with
  | nil => rfl
  | cons s rest ih =>
    rw [List.pairwise_cons] at hsort
    have hb := hbnd s (List.mem_cons_self _ _)
    have e1 : toInt64 ((s.off : Int) + (s.size : Int)) = (s.off : Int) + s.size :=
      toInt64_eq_self _ (by omega) (by omega)
    have e2 : toInt64 (s.off : Int) = (s.off : Int) :=
      toInt64_coe _ (by omega)
    have ihr := ih hsort.2 fun t ht => hbnd t (List.mem_cons_of_mem _ ht)
    by_cases h1 : ((s.off : Int) + s.size) ≤ off
    · rw [queryScan, e1, if_pos h1, List.filter_cons_of_neg, ihr]
      simp only [segIntersects, Bool.and_eq_true, decide_eq_true_eq, not_and, not_lt]
      intro hc
      omega
    · by_cases h2 : (s.off : Int) ≥ off + size
      · rw [queryScan, e1, e2, if_neg h1, if_pos h2]
        have : List.filter (segIntersects off size) (s :: rest) = [] := by
          rw [List.filter_eq_nil_iff]
          intro t ht
          simp only [segIntersects, Bool.and_eq_true, decide_eq_true_eq, not_and, not_lt]
          intro hc
          rcases List.mem_cons.1 ht with rfl | ht
          · omega
          · have := hsort.1 t ht
            omega
        rw [this, List.map_nil]
      · rw [queryScan, e1, e2, if_neg h1, if_neg h2, List.filter_cons_of_pos, ihr, List.map_cons]
        · rfl
        · simp only [segIntersects, Bool.and_eq_true, decide_eq_true_eq]
          omega

theorem chain_pairwise (l : List Seg)
    (h : List.Chain' (fun x y : Seg => x.off + x.size ≤ y.off) l) :
    List.Pairwise (fun x y : Seg => x.off + x.size ≤ y.off) l := by
  haveI : IsTrans Seg (fun x y : Seg => x.off + x.size ≤ y.off) := ⟨fun a b c h1 h2 => by omega⟩
  exact List.chain'_iff_pairwise.1 h

theorem chain_sorted (l : List Seg)
    (h : List.Chain' (fun x y : Seg => x.off + x.size ≤ y.off) l) :
    List.Pairwise (fun x y : Seg => x.off ≤ y.off) l :=
  (chain_pairwise l h).imp fun hxy => by omega

theorem segFileReadAt_exact (f : SegFile) (off size : Int)
    (hchain : List.Chain' (fun x y : Seg => x.off + x.size ≤ y.off) f.segs)
    (hoff0 : 0 ≤ off) (hoffR : off < 2 ^ 63)
    (hbnd : ∀ s ∈ f.segs, s.off + s.size < 2 ^ 63) :
    segFileReadAt f off size = (f.segs.filter (segIntersects off size)).map (fill f.file) := by
  have hsorted := chain_sorted f.segs hchain
  have hw : ((wrap64 off : Nat) : Int) = off := by
    rw [wrap64]
    omega
  have hoffs : ∀ a b : Nat, ∀ hab : a ≤ b, ∀ hb : b < f.segs.length,
      (f.segs.get ⟨a, by omega⟩).off ≤ (f.segs.get ⟨b, hb⟩).off := by
    intro a b hab hb
    rcases Nat.lt_or_ge a b with hlt | hge
    · exact List.pairwise_iff_get.1 hsorted ⟨a, by omega⟩ ⟨b, hb⟩ hlt
    · have : a = b := by omega
      subst this
      exact le_refl _
  have hmono : ∀ a b : Nat, a ≤ b → b < f.segs.length →
      (fun i => decide ((f.segs.getD i default).off > wrap64 off)) a = true →
      (fun i => decide ((f.segs.getD i default).off > wrap64 off)) b = true := by
    intro a b hab hb hpa
    simp only [decide_eq_true_eq, gt_iff_lt] at hpa ⊢
    rw [List.getD_eq_getElem f.segs default (by omega : a < f.segs.length)] at hpa
    rw [List.getD_eq_getElem f.segs default hb]
    have := hoffs a b hab hb
    simp only [List.get_eq_getElem] at this
    omega
  obtain ⟨h1, h2, h3, h4⟩ :=
    sortSearchLoop_spec (fun i => decide ((f.segs.getD i default).off > wrap64 off))
      (f.segs.length + 1) 0 f.segs.length (by omega) hmono (Nat.zero_le _)
  rw [segFileReadAt]
  rw [queryScan_filter _ _ _ _ (hsorted.sublist (List.drop_sublist _ _))
    (fun s hs => hbnd s (List.mem_of_mem_drop hs))]
  conv_rhs => rw [← List.take_append_drop
    (sortSearchLoop (fun i => decide ((f.segs.getD i default).off > wrap64 off))
      (f.segs.length + 1) 0 f.segs.length - 1) f.segs]
  rw [List.filter_append, List.map_append]
  have hnil : List.filter (segIntersects off size)
      (f.segs.take (sortSearchLoop (fun i => decide ((f.segs.getD i default).off > wrap64 off))
        (f.segs.length + 1) 0 f.segs.length - 1)) = [] := by
    rw [List.filter_eq_nil_iff]
    intro s hs
    obtain ⟨k, hk, hks⟩ := List.mem_iff_getElem.1 hs
    have hklen : k < f.segs.length := by
      have := hk
      simp only [List.length_take] at this
      omega
    have hkidx : k + 1 <
        sortSearchLoop (fun i => decide ((f.segs.getD i default).off > wrap64 off))
          (f.segs.length + 1) 0 f.segs.length := by
      have := hk
      simp only [List.length_take] at this
      omega
    have hk1len : k + 1 < f.segs.length := by omega
    have hpk1 := h3 (k + 1) (Nat.zero_le _) hkidx
    simp only [decide_eq_true_eq, gt_iff_lt, decide_eq_false_iff_not, not_lt] at hpk1
    rw [List.getD_eq_getElem f.segs default hk1len] at hpk1
    have hpk1i : ((f.segs[k + 1].off : Nat) : Int) ≤ off := by
      rw [← hw]
      exact_mod_cast hpk1
    have hcc := List.chain'_iff_get.1 hchain k (by omega)
    simp only [List.get_eq_getElem] at hcc
    have hks' : f.segs[k] = s := by
      rw [← hks, List.getElem_take]
    simp only [segIntersects, Bool.and_eq_true, decide_eq_true_eq, not_and, not_lt]
    intro hcontra
    rw [← hks'] at hcontra
    omega
  rw [hnil, List.map_nil, List.nil_append]

theorem copyLoop_stop (l : List Seg) (b : List Nat) (off : Int) (n : Nat) (h : b.length ≤ n) :
    copyLoop l b off n = some (n, b) := by
  cases l with
  | nil => rfl
  | cons s rest => rw [copyLoop, if_neg (by omega)]

theorem concatData_nil_of_total (l : List Seg)
    (hdata : ∀ s ∈ l, s.data.length = s.size) (h : segsTotal l = 0) :
    concatData l = [] := by
  refine List.eq_nil_of_length_eq_zero ?_
  rw [concatData, List.length_flatten, List.map_map]
  rw [segsTotal] at h
  have : ∀ s ∈ l, s.data.length = 0 := by
    intro s hs
    have h1 := hdata s hs
    have h2 : s.size ≤ (l.map fun s => s.size).sum := List.le_sum_of_mem (List.mem_map_of_mem _ hs)
    omega
  calc (l.map (List.length ∘ fun s => s.data)).sum
      = (l.map fun _ => (0 : Nat)).sum := by
        refine congrArg _ (List.map_congr_left fun s hs => ?_)
        simpa using this s hs
    _ = 0 := by simp

theorem concatData_cons (s : Seg) (l : List Seg) :
    concatData (s :: l) = s.data ++ concatData l := by
  rw [concatData, List.map_cons, List.flatten_cons, ← concatData]

theorem segsTotal_cons (s : Seg) (l : List Seg) :
    segsTotal (s :: l) = s.size + segsTotal l := by
  rw [segsTotal, List.map_cons, List.sum_cons, ← segsTotal]

theorem copyLoop_exact (l : List Seg) : ∀ (b : List Nat) (off : Int) (n : Nat),
    List.Chain' (fun x y : Seg => y.off = x.off + x.size) l →
    (∀ s, l.head? = some s → (s.off : Int) = off) →
    (∀ s ∈ l, s.data.length = s.size) →
    (∀ s ∈ l, s.off < 2 ^ 63 ∧ s.size < 2 ^ 63) →
    b.length = n + segsTotal l →
    copyLoop l b off n = some (b.length, b.take n ++ concatData l) := by
  induction l with
  | nil =>
    intro b off n _ _ _ _ hlen
    rw [segsTotal] at hlen
    simp only [List.map_nil, List.sum_nil, Nat.add_zero] at hlen
    rw [copyLoop, concatData]
    simp [← hlen]
  | cons s rest ih =>
    intro b off n hchain hhead hdata hb63 hlen
    have hsz : s.data.length = s.size := hdata s (List.mem_cons_self _ _)
    have hoff : (s.off : Int) = off := hhead s rfl
    have hs63 := hb63 s (List.mem_cons_self _ _)
    have ht : toInt64 (s.off : Int) = (s.off : Int) := toInt64_coe _ hs63.1
    have hrest_total : b.length = n + s.size + segsTotal rest := by
      rw [segsTotal] at hlen ⊢
      simp only [List.map_cons, List.sum_cons] at hlen
      omega
    by_cases hnb : n < b.length
    · rw [copyLoop, if_pos hnb, ht]
      have e1 : off - (s.off : Int) = 0 := by omega
      rw [e1]
      dsimp only
      have e2 : toInt64 ((s.size : Int) - 0) = (s.size : Int) := by
        rw [sub_zero]
        exact toInt64_coe _ hs63.2
      rw [e2]
      have hns : n + s.size ≤ b.length := by omega
      rw [if_neg (by push_cast; omega)]
      rw [if_neg (by omega), if_neg (by omega), if_neg (by push_cast; omega)]
      have e3 : min (s.size : Int).toNat (s.data.length - (0 : Int).toNat) = s.size := by
        simp [hsz]
      rw [e3]
      have e4 : (s.data.drop (0 : Int).toNat).take s.size = s.data := by
        simp [Int.toNat_zero, List.drop_zero, hsz, List.take_of_length_le (le_of_eq hsz)]
      rw [e4]
      have hov : overwrite b n s.data = (b.take n ++ s.data) ++ b.drop (n + s.data.length) := by
        rw [overwrite]
      have hovlen : (overwrite b n s.data).length = b.length :=
        overwrite_length b s.data n (by omega)
      have hch' := (List.chain'_cons'.1 hchain)
      have hhead2 : ∀ t, rest.head? = some t → (t.off : Int) = off + s.size := by
        intro t ht
        have := hch'.1 t ht
        push_cast [this]
        omega
      have hdata2 : ∀ t ∈ rest, t.data.length = t.size :=
        fun t ht => hdata t (List.mem_cons_of_mem _ ht)
      have hlen2 : (overwrite b n s.data).length = (n + s.size) + segsTotal rest := by
        rw [hovlen, hrest_total]
      rw [ih (overwrite b n s.data) (off + s.size) (n + s.size) hch'.2 hhead2 hdata2
        (fun t ht => hb63 t (List.mem_cons_of_mem _ ht)) hlen2]
      rw [hovlen]
      refine congrArg _ (congrArg₂ _ rfl ?_)
      rw [hov, List.take_left' (by simp only [List.length_append, List.length_take, hsz]; omega),
        concatData_cons, List.append_assoc]
    · have hstop : b.length = n := by omega
      rw [copyLoop_stop _ _ _ _ hstop.le]
      have h0 : segsTotal (s :: rest) = 0 := by
        rw [segsTotal] at hlen
        rw [segsTotal]
        omega
      have hcd : concatData (s :: rest) = [] := concatData_nil_of_total _ hdata h0
      rw [hcd, List.append_nil, ← hstop, List.take_length]

theorem copyLoop_safe (l : List Seg) : ∀ (b : List Nat) (off : Int) (n : Nat),
    List.Chain' (fun x y : Seg => y.off = x.off + x.size) l →
    (∀ s, l.head? = some s → (s.off : Int) ≤ off ∧ off < (s.off : Int) + s.size) →
    (∀ s ∈ l, s.data.length = s.size) →
    (∀ s ∈ l, 1 ≤ s.size) →
    (∀ s ∈ l, s.off < 2 ^ 63 ∧ s.size < 2 ^ 63) →
    n ≤ b.length →
    ∃ m b2, copyLoop l b off n = some (m, b2) ∧ n ≤ m ∧ m ≤ b.length ∧ b2.length = b.length ∧
      (l ≠ [] → n < b.length → n < m) := by
  induction l with
  | nil =>
    intro b off n _ _ _ _ _ hn
    exact ⟨n, b, rfl, le_refl _, hn, rfl, fun h _ => absurd rfl h⟩
  | cons s rest ih =>
    intro b off n hchain hcover hdata hsz hb63 hn
    by_cases hnb : n < b.length
    · obtain ⟨hc1, hc2⟩ := hcover s rfl
      have hdl : s.data.length = s.size := hdata s (List.mem_cons_self _ _)
      have hs1 : 1 ≤ s.size := hsz s (List.mem_cons_self _ _)
      have hs63 := hb63 s (List.mem_cons_self _ _)
      have ht : toInt64 (s.off : Int) = (s.off : Int) := toInt64_coe _ hs63.1
      have hseg : toInt64 ((s.size : Int) - (off - (s.off : Int))) =
          (s.size : Int) - (off - (s.off : Int)) :=
        toInt64_eq_self _ (by omega) (by omega)
      rw [copyLoop, if_pos hnb, ht]
      dsimp only
      rw [hseg]
      by_cases hC : (s.size : Int) - (off - (s.off : Int)) > (b.length : Int) - (n : Int)
      · rw [if_pos hC]
        rw [if_neg (by omega), if_neg (by omega), if_neg (by omega)]
        have hnum : ((b.length : Int) - (n : Int)).toNat ⊓
            (s.data.length - (off - (s.off : Int)).toNat) = b.length - n := by
          omega
        rw [hnum]
        have hfin : n + (b.length - n) = b.length := by omega
        rw [hfin]
        have hsrc : (((s.data.drop (off - (s.off : Int)).toNat).take (b.length - n))).length
            ≤ b.length - n := by
          simp only [List.length_take, List.length_drop]
          omega
        have hblen : (overwrite b n ((s.data.drop (off - (s.off : Int)).toNat).take
            (b.length - n))).length = b.length := by
          rw [overwrite_length]
          omega
        refine ⟨b.length, _, ?_, by omega, le_refl _, hblen, fun _ _ => hnb⟩
        exact copyLoop_stop _ _ _ _ (le_of_eq hblen)
      · rw [if_neg hC]
        rw [if_neg (by omega), if_neg (by omega), if_neg (by omega)]
        have hnum : ((s.size : Int) - (off - (s.off : Int))).toNat ⊓
            (s.data.length - (off - (s.off : Int)).toNat) = s.size - (off - (s.off : Int)).toNat := by
          omega
        rw [hnum]
        have hch' := List.chain'_cons'.1 hchain
        have hnum1 : 1 ≤ s.size - (off - (s.off : Int)).toNat := by omega
        have hnn : n + (s.size - (off - (s.off : Int)).toNat) ≤ b.length := by omega
        have hsrc : (((s.data.drop (off - (s.off : Int)).toNat).take
            (s.size - (off - (s.off : Int)).toNat))).length
            ≤ s.size - (off - (s.off : Int)).toNat := by
          simp only [List.length_take, List.length_drop]
          omega
        have hblen : (overwrite b n ((s.data.drop (off - (s.off : Int)).toNat).take
            (s.size - (off - (s.off : Int)).toNat))).length = b.length := by
          rw [overwrite_length]
          omega
        have hcov2 : ∀ t, rest.head? = some t →
            (t.off : Int) ≤ off + (s.size - (off - (s.off : Int)).toNat : Nat) ∧
            off + ((s.size - (off - (s.off : Int)).toNat : Nat) : Int) < (t.off : Int) + t.size := by
          intro t ht
          have hto := hch'.1 t ht
          have htmem : t ∈ rest := by
            cases rest with
            | nil => simp at ht
            | cons u us =>
              simp only [List.head?_cons, Option.some_inj] at ht
              rw [← ht]
              exact List.mem_cons_self _ _
          have hts := hsz t (List.mem_cons_of_mem _ htmem)
          constructor
          · push_cast
            omega
          · push_cast
            omega
        obtain ⟨m, b3, heq, hm1, hm2, hm3, _⟩ := ih
          (overwrite b n ((s.data.drop (off - (s.off : Int)).toNat).take
            (s.size - (off - (s.off : Int)).toNat)))
          (off + (s.size - (off - (s.off : Int)).toNat : Nat))
          (n + (s.size - (off - (s.off : Int)).toNat)) hch'.2 hcov2
          (fun t ht => hdata t (List.mem_cons_of_mem _ ht))
          (fun t ht => hsz t (List.mem_cons_of_mem _ ht))
          (fun t ht => hb63 t (List.mem_cons_of_mem _ ht))
          (by omega)
        refine ⟨m, b3, heq, by omega, by omega, by omega, fun _ _ => by omega⟩
    · have hstop : b.length = n := by omega
      exact ⟨n, b, copyLoop_stop _ _ _ _ hstop.le, le_refl _, hn, rfl,
        fun _ h => absurd h hnb⟩

theorem wrap64_coe (m : Nat) (h : m < 2 ^ 64) : wrap64 (m : Int) = m := by
  rw [wrap64]
  rw [Int.emod_eq_of_lt (by positivity) (by exact_mod_cast h)]
  exact Int.toNat_natCast m

theorem record_length (o : Nat) (b : List Nat) : (record o b).length = 16 + b.length := by
  rw [record]
  simp only [List.length_append, leBytes_length]

theorem overwrite_exact_append (X src : List Nat) (pos c : Nat)
    (hpos : pos = X.length) (hc : c = src.length) :
    overwrite (X ++ List.replicate c 0) pos src = X ++ src := by
  subst hpos
  subst hc
  rw [overwrite, List.take_left]
  rw [List.drop_eq_nil_of_le (by simp)]
  rw [List.append_nil]

theorem segFileWriteAt_spec (f : SegFile) (b : List Nat) (o : Nat)
    (hcur : f.off = f.file.length) (ho : o < 2 ^ 64) :
    segFileWriteAt f b (o : Int) =
      ({ file := f.file ++ record o b
         off := f.off + 16 + b.length
         size := f.size + b.length
         segs := f.segs ++ [⟨o, b.length, f.off + 16, []⟩]
         closed := f.closed }, b.length) := by
  rw [segFileWriteAt, segFileWriteAtRes]
  dsimp only
  rw [wrap64_coe o ho]
  have h16 : (leBytes 8 o ++ leBytes 8 b.length).length = 16 := by
    simp only [List.length_append, leBytes_length]
  rw [overwrite_exact_append f.file (leBytes 8 o ++ leBytes 8 b.length) f.off _ hcur
    (by rw [h16]; omega)]
  rw [overwrite_exact_append (f.file ++ (leBytes 8 o ++ leBytes 8 b.length)) (b.take b.length)
    (f.off + 16) _ (by simp only [List.length_append, h16]; omega)
    (by simp only [List.length_take, List.length_append, h16]; omega)]
  rw [List.take_length]
  rw [record]
  simp [List.append_assoc]

theorem writeShard_spec (recs : List (Nat × List Nat)) : ∀ (f : SegFile),
    f.off = f.file.length →
    (∀ r ∈ recs, r.1 < 2 ^ 64) →
    writeShard f recs =
      { file := f.file ++ buildFile recs
        off := f.off + (recs.map fun r => 16 + r.2.length).sum
        size := f.size + (recs.map fun r => r.2.length).sum
        segs := f.segs ++ buildSegs f.off recs
        closed := f.closed } := by
  induction recs with
  | nil =>
    intro f hcur _
    cases f
    simp [writeShard, buildFile, buildSegs]
  | cons r rest ih =>
    intro f hcur hbound
    obtain ⟨o, b⟩ := r
    rw [writeShard]
    rw [segFileWriteAt_spec f b o hcur (hbound (o, b) (List.mem_cons_self _ _))]
    rw [ih _ (by simp [record_length]; omega) (fun t ht => hbound t (List.mem_cons_of_mem _ ht))]
    simp only [buildFile, buildSegs, List.map_cons, List.sum_cons]
    rw [SegFile.mk.injEq]
    refine ⟨by simp, by omega, by omega, by simp, rfl⟩

theorem totalLen_cons (i : Nat) (b : List Nat) (rest : List (Nat × List Nat)) :
    totalLen ((i, b) :: rest) = b.length + totalLen rest := by
  rw [totalLen, List.map_cons, List.sum_cons, ← totalLen]

theorem proj_annot_cons_same (i base : Nat) (b : List Nat) (rest : List WRec) :
    proj i (⟨i, base, b⟩ :: rest) = (base, b) :: proj i rest := by
  rw [proj, List.filterMap_cons, ← proj]
  simp

theorem proj_annot_cons_other (i j base : Nat) (b : List Nat) (rest : List WRec) (h : j ≠ i) :
    proj i (⟨j, base, b⟩ :: rest) = proj i rest := by
  rw [proj, List.filterMap_cons, ← proj]
  simp [h]

theorem seqWrites_spec (ws : List (Nat × List Nat)) : ∀ (base : Nat) (s0 s1 : SegFile) (sz : Int),
    (∀ w ∈ ws, w.1 < 2) →
    base + totalLen ws < 2 ^ 64 →
    s0.off = s0.file.length → s1.off = s1.file.length →
    seqWrites ⟨[s0, s1], sz⟩ base ws =
      ⟨[writeShard s0 (proj 0 (annot base ws)), writeShard s1 (proj 1 (annot base ws))],
       sz + totalLen ws⟩ := by
  induction ws with
  | nil =>
    intro base s0 s1 sz _ _ _ _
    rw [seqWrites, annot, proj, proj]
    simp [writeShard, totalLen]
  | cons w rest ih =>
    intro base s0 s1 sz hsh hbound h0 h1
    obtain ⟨i, b⟩ := w
    have hi : i < 2 := hsh (i, b) (List.mem_cons_self _ _)
    have hb64 : base < 2 ^ 64 := by
      rw [totalLen_cons] at hbound
      omega
    rw [seqWrites, annot]
    match i, hi with
    | 0, _ =>
      have hstep : fileWriteAt { files := [s0, s1], size := sz } 0 b (base : Int) =
          ({ files := [(segFileWriteAt s0 b (base : Int)).1, s1], size := sz + b.length },
           (segFileWriteAt s0 b (base : Int)).2) := rfl
      rw [hstep]
      dsimp only
      rw [segFileWriteAt_spec s0 b base h0 hb64]
      dsimp only
      rw [ih (base + b.length) _ s1 (sz + b.length)
        (fun t ht => hsh t (List.mem_cons_of_mem _ ht))
        (by rw [totalLen_cons] at hbound; omega)
        (by dsimp only; simp only [List.length_append, record_length]; omega) h1]
      rw [proj_annot_cons_same, proj_annot_cons_other 1 0 base b _ (by omega)]
      rw [writeShard, segFileWriteAt_spec s0 b base h0 hb64]
      rw [File.mk.injEq]
      refine ⟨rfl, ?_⟩
      rw [totalLen_cons]
      push_cast
      ring
    | 1, _ =>
      have hstep : fileWriteAt { files := [s0, s1], size := sz } 1 b (base : Int) =
          ({ files := [s0, (segFileWriteAt s1 b (base : Int)).1], size := sz + b.length },
           (segFileWriteAt s1 b (base : Int)).2) := rfl
      rw [hstep]
      dsimp only
      rw [segFileWriteAt_spec s1 b base h1 hb64]
      dsimp only
      rw [ih (base + b.length) s0 _ (sz + b.length)
        (fun t ht => hsh t (List.mem_cons_of_mem _ ht))
        (by rw [totalLen_cons] at hbound; omega)
        h0 (by dsimp only; simp only [List.length_append, record_length]; omega)]
      rw [proj_annot_cons_same, proj_annot_cons_other 0 1 base b _ (by omega)]
      rw [writeShard, segFileWriteAt_spec s1 b base h1 hb64]
      rw [File.mk.injEq]
      refine ⟨rfl, ?_⟩
      rw [totalLen_cons]
      push_cast
      ring

theorem cursorSum_cons (s : Seg) (l : List Seg) :
    cursorSum (s :: l) = 16 + s.size + cursorSum l := by
  rw [cursorSum, List.map_cons, List.sum_cons, ← cursorSum]

theorem posOk_shift (l : List Seg) : ∀ p p' : Nat, p = p' → posOk l p → posOk l p' := by
  intro p p' h
  rw [h]
  exact id

theorem posOk_append (l : List Seg) : ∀ (p : Nat) (s : Seg),
    posOk l p → s.pos = p + cursorSum l → posOk (l ++ [s]) p := by
  induction l with
  | nil =>
    intro p s _ hs
    rw [cursorSum] at hs
    simp only [List.map_nil, List.sum_nil, Nat.add_zero] at hs
    rw [List.nil_append]
    exact ⟨hs, trivial⟩
  | cons t rest ih =>
    intro p s hok hs
    rw [List.cons_append, posOk]
    rw [posOk] at hok
    refine ⟨hok.1, ih _ s hok.2 ?_⟩
    rw [hs, cursorSum_cons]
    omega

theorem replayLoop_posOk (file : List Nat) : ∀ (fuel pos sz0 : Nat),
    posOk (replayLoop file fuel pos sz0).1 (pos + 16) ∧
    (replayLoop file fuel pos sz0).2.1 = pos + cursorSum (replayLoop file fuel pos sz0).1 := by
  intro fuel
  induction fuel with
  | zero =>
    intro pos sz0
    rw [replayLoop]
    exact ⟨trivial, by rw [cursorSum]; simp⟩
  | succ f ih =>
    intro pos sz0
    by_cases h : pos + 16 ≤ file.length
    · rw [replayLoop, if_pos h]
      dsimp only
      set o := leVal ((file.drop pos).take 8)
      set sz := leVal ((file.drop (pos + 8)).take 8)
      obtain ⟨ih1, ih2⟩ := ih (pos + 16 + sz) (o + sz)
      constructor
      · rw [posOk]
        refine ⟨rfl, ?_⟩
        dsimp only
        exact posOk_shift _ _ _ (by omega) ih1
      · rw [cursorSum_cons]
        dsimp only
        omega
    · rw [replayLoop, if_neg h]
      exact ⟨trivial, by rw [cursorSum]; simp⟩

theorem segFileWriteAt_fields (f : SegFile) (b : List Nat) (off : Int) :
    (segFileWriteAt f b off).1.segs
        = f.segs ++ [⟨wrap64 off, b.length, f.off + 16, []⟩] ∧
    (segFileWriteAt f b off).1.off = f.off + 16 + b.length := by
  rw [segFileWriteAt, segFileWriteAtRes]
  exact ⟨rfl, rfl⟩

theorem mergeSegs_nil_left (b : List Seg) : mergeSegs [] b = b := rfl

theorem mergeSegs_pair_smaller (x y : Seg) (hoff : x.off = y.off) (hsz : x.size < y.size) :
    mergeSegs [x] [y] = [x, y] ∧ mergeSegs [y] [x] = [x, y] := by
  have hgexy : segGE x y = false := by
    refine Bool.eq_false_iff.2 ?_
    simp only [segGE, Bool.or_eq_true, Bool.and_eq_true, decide_eq_true_eq, beq_iff_eq, ne_eq]
    omega
  have hgeyx : segGE y x = true := by
    simp only [segGE, Bool.or_eq_true, Bool.and_eq_true, decide_eq_true_eq, beq_iff_eq]
    omega
  constructor
  · rw [mergeSegs, if_neg (by simp), if_neg (by simp), if_neg (by simp)]
    show mergeSegsAux 2 [x] [y] [] = [x, y]
    rw [mergeSegsAux, if_neg (by simp [hgexy])]
    rw [mergeSegsAux]
    · simp
    · simp
  · rw [mergeSegs, if_neg (by simp), if_neg (by simp), if_neg (by simp)]
    show mergeSegsAux 2 [y] [x] [] = [x, y]
    rw [mergeSegsAux, if_pos hgeyx]
    rw [mergeSegsAux]
    simp

theorem copyLoop_head_exact (s : Seg) (rest : List Seg) (b : List Nat) (off : Int) (n : Nat)
    (hoff : (s.off : Int) = off) (hdl : s.data.length = s.size)
    (hlen : b.length = n + s.size) (hpos : 1 ≤ s.size)
    (ho63 : s.off < 2 ^ 63) (hsz63 : s.size < 2 ^ 63) :
    copyLoop (s :: rest) b off n = some (b.length, b.take n ++ s.data) := by
  rw [copyLoop, if_pos (by omega), toInt64_coe s.off ho63]
  have e1 : off - (s.off : Int) = 0 := by omega
  rw [e1]
  dsimp only
  have e2 : toInt64 ((s.size : Int) - 0) = (s.size : Int) := by
    rw [sub_zero]
    exact toInt64_coe _ hsz63
  rw [e2]
  rw [if_neg (by push_cast; omega)]
  rw [if_neg (by omega), if_neg (by omega), if_neg (by push_cast; omega)]
  have e3 : min (s.size : Int).toNat (s.data.length - (0 : Int).toNat) = s.size := by
    simp [hdl]
  rw [e3]
  have e4 : (s.data.drop (0 : Int).toNat).take s.size = s.data := by
    simp [Int.toNat_zero, List.drop_zero, hdl, List.take_of_length_le (le_of_eq hdl)]
  rw [e4]
  rw [copyLoop_stop _ _ _ _ (by rw [overwrite_length b s.data n (by omega)]; omega)]
  have hov : overwrite b n s.data = b.take n ++ s.data := by
    rw [overwrite]
    rw [List.drop_eq_nil_of_le (by omega), List.append_nil]
  rw [hov, hlen]

theorem fileReadAt_two (A B : SegFile) (sz : Int) (blen : Nat) (off : Int) (h : ¬ off > sz) :
    fileReadAt { files := [A, B], size := sz } blen off =
      (copyLoop (mergeSegs (segFileReadAt A off blen) (segFileReadAt B off blen))
        (List.replicate blen 0) off 0).map (fun r => (r.1, r.2, false)) := by
  rw [fileReadAt, if_neg h]
  dsimp only [List.foldl]
  rw [mergeSegs_nil_left]

theorem cursorSum_append_one (l : List Seg) (s : Seg) :
    cursorSum (l ++ [s]) = cursorSum l + 16 + s.size := by
  rw [cursorSum, List.map_append, List.sum_append, ← cursorSum]
  simp [cursorSum]
  omega

/-- C9: The storage-position invariant is established by open-replay and kept
by every write: the shard's first descriptor's storage position is 16, each
subsequent descriptor's storage position equals the previous position plus
the previous length plus 16, and the append cursor equals the sum over all
descriptors of `16 + length`. -/
theorem c9_invariant :
    (∀ file : List Nat, posOk (openSegFile file).segs 16 ∧
      (openSegFile file).off = cursorSum (openSegFile file).segs) ∧
    (∀ (f : SegFile) (b : List Nat) (off : Int),
      posOk f.segs 16 ∧ f.off = cursorSum f.segs →
      posOk (segFileWriteAt f b off).1.segs 16 ∧
      (segFileWriteAt f b off).1.off = cursorSum (segFileWriteAt f b off).1.segs) := by
  constructor
  · intro file
    obtain ⟨h1, h2⟩ := replayLoop_posOk file (file.length + 1) 0 0
    exact ⟨posOk_shift _ _ _ (by omega) h1, by rw [openSegFile]; dsimp only; omega⟩
  · intro f b off ⟨hp, hc⟩
    obtain ⟨hsegs, hoff⟩ := segFileWriteAt_fields f b off
    rw [hsegs, hoff]
    constructor
    · refine posOk_append _ _ _ hp ?_
      dsimp only
      omega
    · rw [cursorSum_append_one]
      dsimp only
      omega

/-- C9 witness: the invariant instantiated on a freshly opened empty shard
and one concrete write. -/
theorem c9_witness :
    posOk (segFileWriteAt (openSegFile []) [5] 0).1.segs 16 ∧
    (segFileWriteAt (openSegFile []) [5] 0).1.off
      = cursorSum (segFileWriteAt (openSegFile []) [5] 0).1.segs :=
  c9_invariant.2 (openSegFile []) [5] 0 ⟨trivial, rfl⟩

/-- C3 counterexample: merging two ascending singleton sequences (offsets 1
and 2) returns them in ascending offset order, not the descending order the
claim states. -/
theorem c3_counterexample :
    mergeSegs [⟨1, 1, 16, []⟩] [⟨2, 1, 16, []⟩] = [⟨1, 1, 16, []⟩, ⟨2, 1, 16, []⟩] ∧
    ¬ List.Pairwise (fun x y : Seg => y.off ≤ x.off)
      (mergeSegs [⟨1, 1, 16, []⟩] [⟨2, 1, 16, []⟩]) := by
  constructor
  · decide
  · decide

/-- C3 amended: for two inputs each in ascending-offset order, `mergeSegs`
returns a combined sequence containing exactly the elements of both inputs
(a permutation of their concatenation), ordered by ASCENDING offset. -/
theorem c3_amended (a b : List Seg)
    (ha : List.Pairwise (fun x y : Seg => x.off ≤ y.off) a)
    (hb : List.Pairwise (fun x y : Seg => x.off ≤ y.off) b) :
    List.Perm (mergeSegs a b) (a ++ b) ∧
    List.Pairwise (fun x y : Seg => x.off ≤ y.off) (mergeSegs a b) :=
  ⟨mergeSegs_perm a b, mergeSegs_sorted a b ha hb⟩

/-- C3 witness: the amended merge ordering at a concrete pair of ascending
inputs. -/
theorem c3_witness :
    List.Perm (mergeSegs [⟨1, 1, 16, []⟩, ⟨3, 2, 20, []⟩] [⟨2, 1, 16, []⟩])
      ([⟨1, 1, 16, []⟩, ⟨3, 2, 20, []⟩] ++ [⟨2, 1, 16, []⟩]) ∧
    List.Pairwise (fun x y : Seg => x.off ≤ y.off)
      (mergeSegs [⟨1, 1, 16, []⟩, ⟨3, 2, 20, []⟩] [⟨2, 1, 16, []⟩]) :=
  c3_amended [⟨1, 1, 16, []⟩, ⟨3, 2, 20, []⟩] [⟨2, 1, 16, []⟩] (by decide) (by decide)

/-- C6 counterexample: a write whose underlying payload write fails (the
backing store reports 0 bytes and an error) returns the error but still
appends the descriptor and advances the append cursor — the shard state is
not left unchanged as the claim states. -/
theorem c6_counterexample :
    (segFileWriteAtRes (openSegFile []) [7] 0 ⟨0, false⟩).2.2 = true ∧
    (segFileWriteAtRes (openSegFile []) [7] 0 ⟨0, false⟩).1.segs = [⟨0, 1, 16, []⟩] ∧
    (segFileWriteAtRes (openSegFile []) [7] 0 ⟨0, false⟩).1.off = 17 ∧
    (openSegFile []).segs = [] ∧ (openSegFile []).off = 0 := by
  refine ⟨?_, ?_, ?_, ?_, ?_⟩ <;> decide

/-- C6 amended: on success the write appends the complete header followed by
the complete payload as one contiguous frame at the append cursor, advances
the cursor by `16 + len(payload)`, appends the descriptor and returns
`len(payload)`; on an underlying-store failure the error is returned but the
descriptor is still appended and the cursor still advanced (the shard state
is not rolled back). -/
theorem c6_amended (f : SegFile) (b : List Nat) (o : Nat) (res : WriteRes)
    (hcur : f.off = f.file.length) (ho : o < 2 ^ 64) :
    (segFileWriteAt f b (o : Int)).1.file = f.file ++ record o b ∧
    (segFileWriteAt f b (o : Int)).1.off = f.off + 16 + b.length ∧
    (segFileWriteAt f b (o : Int)).1.segs = f.segs ++ [⟨o, b.length, f.off + 16, []⟩] ∧
    (segFileWriteAt f b (o : Int)).2 = b.length ∧
    (segFileWriteAtRes f b (o : Int) res).1.segs = f.segs ++ [⟨wrap64 o, b.length, f.off + 16, []⟩] ∧
    (segFileWriteAtRes f b (o : Int) res).1.off = f.off + 16 + b.length ∧
    (segFileWriteAtRes f b (o : Int) res).2.2 = !res.ok := by
  rw [segFileWriteAt_spec f b o hcur ho]
  refine ⟨rfl, rfl, rfl, rfl, rfl, rfl, rfl⟩

/-- C6 witness: the amended write contract at a concrete shard, payload and
a failing backing-store response. -/
theorem c6_witness :
    (segFileWriteAt (openSegFile []) [7] 0).1.file = (openSegFile []).file ++ record 0 [7] ∧
    (segFileWriteAt (openSegFile []) [7] 0).1.off = (openSegFile []).off + 16 + 1 ∧
    (segFileWriteAt (openSegFile []) [7] 0).1.segs
      = (openSegFile []).segs ++ [⟨0, 1, (openSegFile []).off + 16, []⟩] ∧
    (segFileWriteAt (openSegFile []) [7] 0).2 = 1 ∧
    (segFileWriteAtRes (openSegFile []) [7] 0 ⟨0, false⟩).1.segs
      = (openSegFile []).segs ++ [⟨wrap64 0, 1, (openSegFile []).off + 16, []⟩] ∧
    (segFileWriteAtRes (openSegFile []) [7] 0 ⟨0, false⟩).1.off
      = (openSegFile []).off + 16 + 1 ∧
    (segFileWriteAtRes (openSegFile []) [7] 0 ⟨0, false⟩).2.2 = !(false : Bool) :=
  c6_amended (openSegFile []) [7] 0 ⟨0, false⟩ (by decide) (by decide)

/-- C8 counterexample: closing a merged store whose first shard close fails
(already closed) and whose second shard is still open returns the error and
leaves the second shard untouched — its close is never attempted, contrary
to the claim. -/
theorem c8_counterexample :
    (fileClose [{ file := [], off := 0, size := 0, segs := [], closed := true },
                { file := [], off := 0, size := 0, segs := [], closed := false }]).2 = true ∧
    ((fileClose [{ file := [], off := 0, size := 0, segs := [], closed := true },
                 { file := [], off := 0, size := 0, segs := [], closed := false }]).1.getD 1
      default).closed = false := by
  constructor
  · decide
  · decide

/-- C8 amended: File.Close closes shards in order and returns at the FIRST
error encountered; the shards after the first failing one are left untouched
(their close is not attempted). -/
theorem c8_amended (pre post : List SegFile) (bad : SegFile)
    (hpre : ∀ g ∈ pre, g.closed = false) (hbad : bad.closed = true) :
    fileClose (pre ++ bad :: post)
      = (pre.map (fun g => { g with closed := true }) ++ bad :: post, true) := by
  induction pre with
  | nil =>
    rw [List.nil_append, fileClose, segFileClose, if_pos hbad]
    simp
  | cons g gs ih =>
    have hg : g.closed = false := hpre g (List.mem_cons_self _ _)
    have hclose : segFileClose g = ({ g with closed := true }, false) := by
      rw [segFileClose]
      rw [if_neg (by simp [hg])]
    rw [List.cons_append, fileClose, hclose]
    dsimp only
    rw [if_neg (by simp)]
    rw [ih (fun t ht => hpre t (List.mem_cons_of_mem _ ht))]
    simp

/-- C8 witness: the amended close behaviour with one healthy shard before an
already-closed shard. -/
theorem c8_witness :
    fileClose ([{ file := [], off := 0, size := 0, segs := [], closed := false }] ++
        { file := [], off := 0, size := 0, segs := [], closed := true } :: [])
      = (([{ file := [], off := 0, size := 0, segs := [], closed := false }] :
          List SegFile).map (fun g => { g with closed := true }) ++
         { file := [], off := 0, size := 0, segs := [], closed := true } :: [], true) :=
  c8_amended [{ file := [], off := 0, size := 0, segs := [], closed := false }] []
    { file := [], off := 0, size := 0, segs := [], closed := true }
    (by intro g hg; simp at hg; rw [hg]) (by decide)

theorem annot_mem (ws : List (Nat × List Nat)) : ∀ (base : Nat) (r : WRec),
    r ∈ annot base ws →
    (∃ w ∈ ws, r.sh = w.1 ∧ r.payload = w.2) ∧
    base ≤ r.off ∧ r.off + r.payload.length ≤ base + totalLen ws := by
  induction ws with
  | nil =>
    intro base r h
    rw [annot] at h
    simp at h
  | cons w rest ih =>
    intro base r h
    obtain ⟨i, b⟩ := w
    rw [annot, List.mem_cons] at h
    rcases h with rfl | h
    · refine ⟨⟨(i, b), List.mem_cons_self _ _, rfl, rfl⟩, by dsimp only; omega, ?_⟩
      rw [totalLen_cons]
      dsimp only
      omega
    · obtain ⟨⟨w', hw', h1, h2⟩, h3, h4⟩ := ih (base + b.length) r h
      refine ⟨⟨w', List.mem_cons_of_mem _ hw', h1, h2⟩, by omega, ?_⟩
      rw [totalLen_cons]
      omega

theorem annot_pairwise (ws : List (Nat × List Nat)) : ∀ base : Nat,
    List.Pairwise (fun r s : WRec => r.off + r.payload.length ≤ s.off) (annot base ws) := by
  induction ws with
  | nil =>
    intro base
    rw [annot]
    exact List.Pairwise.nil
  | cons w rest ih =>
    intro base
    obtain ⟨i, b⟩ := w
    rw [annot, List.pairwise_cons]
    refine ⟨fun r hr => ?_, ih _⟩
    have h := (annot_mem rest (base + b.length) r hr).2.1
    dsimp only
    omega

theorem annot_chain (ws : List (Nat × List Nat)) : ∀ base : Nat,
    List.Chain' (fun r s : WRec => s.off = r.off + r.payload.length) (annot base ws) := by
  induction ws with
  | nil =>
    intro base
    rw [annot]
    exact List.chain'_nil
  | cons w rest ih =>
    intro base
    obtain ⟨i, b⟩ := w
    rw [annot, List.chain'_cons']
    refine ⟨?_, ih _⟩
    intro y hy
    cases rest with
    | nil =>
      rw [annot] at hy
      simp at hy
    | cons w' rest' =>
      obtain ⟨j, c⟩ := w'
      rw [annot, List.head?_cons, Option.mem_def, Option.some_inj] at hy
      subst hy
      rfl

theorem annot_payloads (ws : List (Nat × List Nat)) : ∀ base : Nat,
    (annot base ws).map (fun r => r.payload) = ws.map (fun w => w.2) := by
  induction ws with
  | nil =>
    intro base
    rfl
  | cons w rest ih =>
    intro base
    obtain ⟨i, b⟩ := w
    rw [annot, List.map_cons, List.map_cons, ih]

theorem proj_mem (i : Nat) (l : List WRec) (ob : Nat × List Nat) (h : ob ∈ proj i l) :
    ∃ r ∈ l, r.sh = i ∧ ob = (r.off, r.payload) := by
  rw [proj, List.mem_filterMap] at h
  obtain ⟨r, hr, hmap⟩ := h
  by_cases hsh : r.sh = i
  · rw [if_pos hsh] at hmap
    exact ⟨r, hr, hsh, (Option.some_inj.1 hmap).symm⟩
  · rw [if_neg hsh] at hmap
    simp at hmap

theorem proj_pairwise (i : Nat) (l : List WRec)
    (h : List.Pairwise (fun r s : WRec => r.off + r.payload.length ≤ s.off) l) :
    List.Pairwise (fun a b : Nat × List Nat => a.1 + a.2.length ≤ b.1) (proj i l) := by
  rw [proj, List.pairwise_filterMap]
  refine List.Pairwise.imp ?_ h
  intro r s hrs x hx y hy
  by_cases h1 : r.sh = i
  · rw [if_pos h1, Option.mem_def, Option.some_inj] at hx
    by_cases h2 : s.sh = i
    · rw [if_pos h2, Option.mem_def, Option.some_inj] at hy
      rw [← hx, ← hy]
      exact hrs
    · rw [if_neg h2] at hy
      simp at hy
  · rw [if_neg h1] at hx
    simp at hx

theorem buildSegs_mem (recs : List (Nat × List Nat)) : ∀ (cur : Nat) (s : Seg),
    s ∈ buildSegs cur recs → ∃ rec ∈ recs, s.off = rec.1 ∧ s.size = rec.2.length := by
  induction recs with
  | nil =>
    intro cur s h
    rw [buildSegs] at h
    simp at h
  | cons r rest ih =>
    intro cur s h
    obtain ⟨o, b⟩ := r
    rw [buildSegs, List.mem_cons] at h
    rcases h with rfl | h
    · exact ⟨(o, b), List.mem_cons_self _ _, rfl, rfl⟩
    · obtain ⟨rec, hrec, h1, h2⟩ := ih _ s h
      exact ⟨rec, List.mem_cons_of_mem _ hrec, h1, h2⟩

theorem buildSegsD_mem (recs : List (Nat × List Nat)) : ∀ (cur : Nat) (s : Seg),
    s ∈ buildSegsD cur recs →
    ∃ rec ∈ recs, s.off = rec.1 ∧ s.size = rec.2.length ∧ s.data = rec.2 := by
  induction recs with
  | nil =>
    intro cur s h
    rw [buildSegsD] at h
    simp at h
  | cons r rest ih =>
    intro cur s h
    obtain ⟨o, b⟩ := r
    rw [buildSegsD, List.mem_cons] at h
    rcases h with rfl | h
    · exact ⟨(o, b), List.mem_cons_self _ _, rfl, rfl, rfl⟩
    · obtain ⟨rec, hrec, h1, h2, h3⟩ := ih _ s h
      exact ⟨rec, List.mem_cons_of_mem _ hrec, h1, h2, h3⟩

theorem buildSegs_pairwise (recs : List (Nat × List Nat)) : ∀ cur : Nat,
    List.Pairwise (fun a b : Nat × List Nat => a.1 + a.2.length ≤ b.1) recs →
    List.Pairwise (fun x y : Seg => x.off + x.size ≤ y.off) (buildSegs cur recs) := by
  induction recs with
  | nil =>
    intro cur _
    rw [buildSegs]
    exact List.Pairwise.nil
  | cons r rest ih =>
    intro cur hpw
    obtain ⟨o, b⟩ := r
    rw [List.pairwise_cons] at hpw
    rw [buildSegs, List.pairwise_cons]
    refine ⟨?_, ih _ hpw.2⟩
    intro s hs
    obtain ⟨rec, hrec, h1, _⟩ := buildSegs_mem rest _ s hs
    have h4 : o + b.length ≤ rec.1 := hpw.1 rec hrec
    dsimp only
    omega

theorem buildSegsD_pairwise (recs : List (Nat × List Nat)) : ∀ cur : Nat,
    List.Pairwise (fun a b : Nat × List Nat => a.1 + a.2.length ≤ b.1) recs →
    List.Pairwise (fun x y : Seg => x.off + x.size ≤ y.off) (buildSegsD cur recs) := by
  induction recs with
  | nil =>
    intro cur _
    rw [buildSegsD]
    exact List.Pairwise.nil
  | cons r rest ih =>
    intro cur hpw
    obtain ⟨o, b⟩ := r
    rw [List.pairwise_cons] at hpw
    rw [buildSegsD, List.pairwise_cons]
    refine ⟨?_, ih _ hpw.2⟩
    intro s hs
    obtain ⟨rec, hrec, h1, _, _⟩ := buildSegsD_mem rest _ s hs
    have h4 : o + b.length ≤ rec.1 := hpw.1 rec hrec
    dsimp only
    omega

theorem readBytes_at (X b Y : List Nat) : readBytes (X ++ b ++ Y) X.length b.length = b := by
  rw [readBytes_eq _ _ _ (by simp only [List.length_append]; omega)]
  rw [List.append_assoc, List.drop_left, List.take_left]

theorem map_fill_buildSegs (recs : List (Nat × List Nat)) : ∀ pre : List Nat,
    (buildSegs pre.length recs).map (fill (pre ++ buildFile recs))
      = buildSegsD pre.length recs := by
  induction recs with
  | nil =>
    intro pre
    rfl
  | cons r rest ih =>
    intro pre
    obtain ⟨o, b⟩ := r
    rw [buildSegs, buildSegsD, List.map_cons]
    have hre : pre ++ buildFile ((o, b) :: rest)
        = (pre ++ (leBytes 8 o ++ leBytes 8 b.length)) ++ b ++ buildFile rest := by
      rw [buildFile, record]
      simp [List.append_assoc]
    have hlen16 : (pre ++ (leBytes 8 o ++ leBytes 8 b.length)).length = pre.length + 16 := by
      simp [leBytes_length]
    have hhead : fill (pre ++ buildFile ((o, b) :: rest)) ⟨o, b.length, pre.length + 16, []⟩
        = ⟨o, b.length, pre.length + 16, b⟩ := by
      rw [fill]
      dsimp only
      rw [hre, ← hlen16, readBytes_at]
    rw [hhead]
    have hfile : pre ++ buildFile ((o, b) :: rest) = (pre ++ record o b) ++ buildFile rest := by
      rw [buildFile, List.append_assoc]
    have hlen : pre.length + 16 + b.length = (pre ++ record o b).length := by
      simp only [List.length_append, record_length]
      omega
    rw [hfile, hlen, ih (pre ++ record o b)]

theorem buildAll_cons_shape (r : WRec) (rest : List WRec) (c0 c1 : Nat) :
    ∃ (hd : Seg) (c0' c1' : Nat),
      buildAll c0 c1 (r :: rest) = hd :: buildAll c0' c1' rest ∧
      hd.off = r.off ∧ hd.size = r.payload.length ∧ hd.data = r.payload := by
  by_cases h : r.sh = 0
  · exact ⟨⟨r.off, r.payload.length, c0 + 16, r.payload⟩, c0 + 16 + r.payload.length, c1,
      by rw [buildAll, if_pos h], rfl, rfl, rfl⟩
  · exact ⟨⟨r.off, r.payload.length, c1 + 16, r.payload⟩, c0, c1 + 16 + r.payload.length,
      by rw [buildAll, if_neg h], rfl, rfl, rfl⟩

theorem buildAll_mem (l : List WRec) : ∀ (c0 c1 : Nat) (s : Seg), s ∈ buildAll c0 c1 l →
    ∃ r ∈ l, s.off = r.off ∧ s.size = r.payload.length ∧ s.data = r.payload := by
  induction l with
  | nil =>
    intro c0 c1 s h
    rw [buildAll] at h
    simp at h
  | cons r rest ih =>
    intro c0 c1 s h
    obtain ⟨hd, c0', c1', heq, h1, h2, h3⟩ := buildAll_cons_shape r rest c0 c1
    rw [heq, List.mem_cons] at h
    rcases h with rfl | h
    · exact ⟨r, List.mem_cons_self _ _, h1, h2, h3⟩
    · obtain ⟨t, ht, g1, g2, g3⟩ := ih _ _ s h
      exact ⟨t, List.mem_cons_of_mem _ ht, g1, g2, g3⟩

theorem buildAll_perm (l : List WRec) : ∀ c0 c1 : Nat, (∀ r ∈ l, r.sh < 2) →
    List.Perm (buildSegsD c0 (proj 0 l) ++ buildSegsD c1 (proj 1 l)) (buildAll c0 c1 l) := by
  induction l with
  | nil =>
    intro c0 c1 _
    rw [proj, proj, buildAll]
    simp [buildSegsD]
  | cons r rest ih =>
    intro c0 c1 hsh
    obtain ⟨sh, o, pl⟩ := r
    have hsh2 : sh < 2 := hsh ⟨sh, o, pl⟩ (List.mem_cons_self _ _)
    match sh, hsh2 with
    | 0, _ =>
      rw [proj_annot_cons_same, proj_annot_cons_other 1 0 _ _ _ (by omega)]
      rw [buildSegsD, buildAll, if_pos rfl]
      rw [List.cons_append]
      exact List.Perm.cons _ (ih _ _ (fun t ht => hsh t (List.mem_cons_of_mem _ ht)))
    | 1, _ =>
      rw [proj_annot_cons_other 0 1 _ _ _ (by omega), proj_annot_cons_same]
      rw [buildSegsD, buildAll, if_neg (show ¬ (⟨1, o, pl⟩ : WRec).sh = 0 from by dsimp only; omega)]
      exact List.Perm.trans List.perm_middle
        (List.Perm.cons _ (ih _ _ (fun t ht => hsh t (List.mem_cons_of_mem _ ht))))

theorem buildAll_pairwise_lt (l : List WRec) : ∀ c0 c1 : Nat,
    List.Pairwise (fun r s : WRec => r.off + r.payload.length ≤ s.off) l →
    (∀ r ∈ l, 1 ≤ r.payload.length) →
    List.Pairwise (fun x y : Seg => x.off < y.off) (buildAll c0 c1 l) := by
  induction l with
  | nil =>
    intro c0 c1 _ _
    rw [buildAll]
    exact List.Pairwise.nil
  | cons r rest ih =>
    intro c0 c1 hpw hne
    rw [List.pairwise_cons] at hpw
    obtain ⟨hd, c0', c1', heq, h1, h2, _⟩ := buildAll_cons_shape r rest c0 c1
    rw [heq, List.pairwise_cons]
    refine ⟨?_, ih _ _ hpw.2 (fun t ht => hne t (List.mem_cons_of_mem _ ht))⟩
    intro s hs
    obtain ⟨t, ht, g1, _, _⟩ := buildAll_mem rest _ _ s hs
    have h3 := hpw.1 t ht
    have hr1 := hne r (List.mem_cons_self _ _)
    omega

theorem buildAll_chain_contig (l : List WRec) : ∀ c0 c1 : Nat,
    List.Chain' (fun r s : WRec => s.off = r.off + r.payload.length) l →
    List.Chain' (fun x y : Seg => y.off = x.off + x.size) (buildAll c0 c1 l) := by
  induction l with
  | nil =>
    intro c0 c1 _
    rw [buildAll]
    exact List.chain'_nil
  | cons r rest ih =>
    intro c0 c1 hch
    rw [List.chain'_cons'] at hch
    obtain ⟨hd, c0', c1', heq, h1, h2, _⟩ := buildAll_cons_shape r rest c0 c1
    rw [heq, List.chain'_cons']
    refine ⟨?_, ih _ _ hch.2⟩
    intro y hy
    cases rest with
    | nil =>
      rw [buildAll] at hy
      simp at hy
    | cons r' rest' =>
      obtain ⟨hd', d0, d1, heq', g1, g2, _⟩ := buildAll_cons_shape r' rest' c0' c1'
      rw [heq', List.head?_cons, Option.mem_def, Option.some_inj] at hy
      subst hy
      have h3 := hch.1 r' rfl
      omega

theorem segsTotal_buildAll (l : List WRec) : ∀ c0 c1 : Nat,
    segsTotal (buildAll c0 c1 l) = (l.map fun r => r.payload.length).sum := by
  induction l with
  | nil =>
    intro c0 c1
    rfl
  | cons r rest ih =>
    intro c0 c1
    obtain ⟨hd, c0', c1', heq, _, h2, _⟩ := buildAll_cons_shape r rest c0 c1
    rw [heq, segsTotal_cons, ih, List.map_cons, List.sum_cons, h2]

theorem concatData_buildAll (l : List WRec) : ∀ c0 c1 : Nat,
    concatData (buildAll c0 c1 l) = (l.map fun r => r.payload).flatten := by
  induction l with
  | nil =>
    intro c0 c1
    rfl
  | cons r rest ih =>
    intro c0 c1
    obtain ⟨hd, c0', c1', heq, _, _, h3⟩ := buildAll_cons_shape r rest c0 c1
    rw [heq, concatData_cons, ih, List.map_cons, List.flatten_cons, h3]

theorem merged_query (ws : List (Nat × List Nat))
    (hsh : ∀ w ∈ ws, w.1 < 2) (hne : ∀ w ∈ ws, 1 ≤ w.2.length)
    (hbound : totalLen ws < 2 ^ 63) (woff wsize : Int)
    (h0 : 0 ≤ woff) (hR : woff < 2 ^ 63) :
    ∃ A B : SegFile,
      seqWrites freshFile 0 ws
        = ⟨[A, B], (0 : Int) + (totalLen ws : Int)⟩ ∧
      mergeSegs (segFileReadAt A woff wsize) (segFileReadAt B woff wsize)
        = (buildAll 0 0 (annot 0 ws)).filter (segIntersects woff wsize) := by
  have hfresh : freshFile = ⟨[⟨[], 0, 0, [], false⟩, ⟨[], 0, 0, [], false⟩], 0⟩ := rfl
  have hys := seqWrites_spec ws 0 ⟨[], 0, 0, [], false⟩ ⟨[], 0, 0, [], false⟩ 0 hsh
    (by omega) rfl rfl
  have hoffb : ∀ i : Nat, ∀ rec ∈ proj i (annot 0 ws), rec.1 < 2 ^ 64 := by
    intro i rec hrec
    obtain ⟨r, hr, _, hre⟩ := proj_mem i (annot 0 ws) rec hrec
    have hb := (annot_mem ws 0 r hr).2.2
    rw [hre]
    dsimp only
    omega
  have hq : ∀ i : Nat,
      segFileReadAt (writeShard ⟨[], 0, 0, [], false⟩ (proj i (annot 0 ws))) woff wsize
        = (buildSegsD 0 (proj i (annot 0 ws))).filter (segIntersects woff wsize) := by
    intro i
    have hWi := writeShard_spec (proj i (annot 0 ws)) ⟨[], 0, 0, [], false⟩ rfl (hoffb i)
    simp only [List.nil_append, Nat.zero_add] at hWi
    rw [hWi]
    have hpw : List.Pairwise (fun a b : Nat × List Nat => a.1 + a.2.length ≤ b.1)
        (proj i (annot 0 ws)) :=
      proj_pairwise i (annot 0 ws) (annot_pairwise ws 0)
    have hbd : ∀ s ∈ buildSegs 0 (proj i (annot 0 ws)), s.off + s.size < 2 ^ 63 := by
      intro s hs
      obtain ⟨rec, hrec, e1, e2⟩ := buildSegs_mem _ _ s hs
      obtain ⟨r, hr, _, hre⟩ := proj_mem i (annot 0 ws) rec hrec
      have hb := (annot_mem ws 0 r hr).2.2
      rw [e1, e2, hre]
      dsimp only
      omega
    rw [segFileReadAt_exact _ woff wsize
      (List.Pairwise.chain' (buildSegs_pairwise _ _ hpw)) h0 hR hbd]
    dsimp only
    have hmf := map_fill_buildSegs (proj i (annot 0 ws)) []
    simp only [List.length_nil, List.nil_append] at hmf
    rw [← hmf, List.filter_map]
    have hfc : List.filter (segIntersects woff wsize ∘ fill (buildFile (proj i (annot 0 ws))))
        (buildSegs 0 (proj i (annot 0 ws)))
        = List.filter (segIntersects woff wsize) (buildSegs 0 (proj i (annot 0 ws))) :=
      List.filter_congr fun x _ => rfl
    rw [hfc]
  refine ⟨writeShard ⟨[], 0, 0, [], false⟩ (proj 0 (annot 0 ws)),
    writeShard ⟨[], 0, 0, [], false⟩ (proj 1 (annot 0 ws)), ?_, ?_⟩
  · rw [hfresh]
    exact hys
  · rw [hq 0, hq 1]
    have hpwl := annot_pairwise ws 0
    have hnel : ∀ r ∈ annot 0 ws, 1 ≤ r.payload.length := by
      intro r hr
      obtain ⟨⟨w, hw, _, hpl⟩, _, _⟩ := annot_mem ws 0 r hr
      rw [hpl]
      exact hne w hw
    have hshl : ∀ r ∈ annot 0 ws, r.sh < 2 := by
      intro r hr
      obtain ⟨⟨w, hw, hsh', _⟩, _, _⟩ := annot_mem ws 0 r hr
      rw [hsh']
      exact hsh w hw
    have hperm : List.Perm
        (mergeSegs
          ((buildSegsD 0 (proj 0 (annot 0 ws))).filter (segIntersects woff wsize))
          ((buildSegsD 0 (proj 1 (annot 0 ws))).filter (segIntersects woff wsize)))
        ((buildAll 0 0 (annot 0 ws)).filter (segIntersects woff wsize)) := by
      refine (mergeSegs_perm _ _).trans ?_
      rw [← List.filter_append]
      exact List.Perm.filter _ (buildAll_perm (annot 0 ws) 0 0 hshl)
    have hs0 : List.Pairwise (fun x y : Seg => x.off ≤ y.off)
        ((buildSegsD 0 (proj 0 (annot 0 ws))).filter (segIntersects woff wsize)) :=
      List.Pairwise.sublist (List.filter_sublist _)
        ((buildSegsD_pairwise _ _ (proj_pairwise 0 _ hpwl)).imp fun h => by omega)
    have hs1 : List.Pairwise (fun x y : Seg => x.off ≤ y.off)
        ((buildSegsD 0 (proj 1 (annot 0 ws))).filter (segIntersects woff wsize)) :=
      List.Pairwise.sublist (List.filter_sublist _)
        ((buildSegsD_pairwise _ _ (proj_pairwise 1 _ hpwl)).imp fun h => by omega)
    have hGlt : List.Pairwise (fun x y : Seg => x.off < y.off)
        ((buildAll 0 0 (annot 0 ws)).filter (segIntersects woff wsize)) :=
      List.Pairwise.sublist (List.filter_sublist _)
        (buildAll_pairwise_lt (annot 0 ws) 0 0 hpwl hnel)
    have hmle := mergeSegs_sorted _ _ hs0 hs1
    have hmne : List.Pairwise (fun x y : Seg => x.off ≠ y.off)
        (mergeSegs
          ((buildSegsD 0 (proj 0 (annot 0 ws))).filter (segIntersects woff wsize))
          ((buildSegsD 0 (proj 1 (annot 0 ws))).filter (segIntersects woff wsize))) :=
      (List.Perm.pairwise_iff (fun h => Ne.symm h) hperm).2
        (hGlt.imp fun h => Nat.ne_of_lt h)
    exact eq_of_perm_of_sorted_off hperm
      (sorted_lt_of_le_nodup _ hmle hmne) hGlt

theorem filter_eq_takeWhile (l : List Seg) : ∀ (o : Nat) (woff wsize : Int),
    List.Chain' (fun x y : Seg => y.off = x.off + x.size) l →
    (∀ s, l.head? = some s → s.off = o) →
    woff < (o : Int) →
    l.filter (segIntersects woff wsize)
      = l.takeWhile (fun s => decide ((s.off : Int) < woff + wsize)) := by
  induction l with
  | nil =>
    intro o woff wsize _ _ _
    rfl
  | cons s rest ih =>
    intro o woff wsize hchain hhead hlt
    have hso : s.off = o := hhead s rfl
    by_cases hP : (s.off : Int) < woff + wsize
    · have hPs : segIntersects woff wsize s = true := by
        simp only [segIntersects, Bool.and_eq_true, decide_eq_true_eq]
        exact ⟨by push_cast; omega, hP⟩
      rw [List.filter_cons_of_pos hPs,
        List.takeWhile_cons_of_pos (by simpa using hP)]
      rw [ih (o + s.size) woff wsize (List.chain'_cons'.1 hchain).2
        (fun t ht => by
          have h2 := (List.chain'_cons'.1 hchain).1 t ht
          omega)
        (by push_cast; omega)]
    · have hPs : ¬ segIntersects woff wsize s = true := by
        simp only [segIntersects, Bool.and_eq_true, decide_eq_true_eq, not_and]
        intro _
        exact hP
      rw [List.filter_cons_of_neg hPs,
        List.takeWhile_cons_of_neg (by simpa using hP)]
      rw [List.filter_eq_nil_iff]
      intro t ht
      have hpw := chain_sorted (s :: rest)
        (List.Chain'.imp (fun a b h => by omega) hchain)
      have h2 := (List.pairwise_cons.1 hpw).1 t ht
      simp only [segIntersects, Bool.and_eq_true, decide_eq_true_eq, not_and]
      intro _
      push_cast
      omega

theorem filter_window (l : List Seg) : ∀ (o : Nat) (woff wsize : Int),
    List.Chain' (fun x y : Seg => y.off = x.off + x.size) l →
    (∀ s, l.head? = some s → s.off = o) →
    (∀ s ∈ l, 1 ≤ s.size) →
    (o : Int) ≤ woff → woff < (o : Int) + (segsTotal l : Int) → 1 ≤ wsize →
    List.Chain' (fun x y : Seg => y.off = x.off + x.size)
      (l.filter (segIntersects woff wsize)) ∧
    (∀ s, (l.filter (segIntersects woff wsize)).head? = some s →
      (s.off : Int) ≤ woff ∧ woff < (s.off : Int) + (s.size : Int)) ∧
    l.filter (segIntersects woff wsize) ≠ [] := by
  induction l with
  | nil =>
    intro o woff wsize _ _ _ hlo hhi _
    rw [segsTotal] at hhi
    simp at hhi
    omega
  | cons s rest ih =>
    intro o woff wsize hchain hhead hsz hlo hhi hws
    have hso : s.off = o := hhead s rfl
    have hs1 : 1 ≤ s.size := hsz s (List.mem_cons_self _ _)
    by_cases hcov : woff < (o : Int) + (s.size : Int)
    · have hPs : segIntersects woff wsize s = true := by
        simp only [segIntersects, Bool.and_eq_true, decide_eq_true_eq]
        exact ⟨by push_cast; omega, by push_cast; omega⟩
      rw [List.filter_cons_of_pos hPs]
      have hft := filter_eq_takeWhile rest (o + s.size) woff wsize
        (List.chain'_cons'.1 hchain).2
        (fun t ht => by
          have h2 := (List.chain'_cons'.1 hchain).1 t ht
          omega)
        (by push_cast; omega)
      refine ⟨?_, ?_, by simp⟩
      · rw [hft]
        have hsplit : s :: rest
            = (s :: rest.takeWhile (fun t => decide ((t.off : Int) < woff + wsize)))
              ++ rest.dropWhile (fun t => decide ((t.off : Int) < woff + wsize)) := by
          rw [List.cons_append, List.takeWhile_append_dropWhile]
        rw [hsplit] at hchain
        exact List.Chain'.left_of_append hchain
      · intro t ht
        rw [List.head?_cons, Option.some_inj] at ht
        subst ht
        exact ⟨by push_cast; omega, by push_cast; omega⟩
    · have hPs : ¬ segIntersects woff wsize s = true := by
        simp only [segIntersects, Bool.and_eq_true, decide_eq_true_eq, not_and]
        intro hc
        push_cast at hc
        omega
      rw [List.filter_cons_of_neg hPs]
      refine ih (o + s.size) woff wsize (List.chain'_cons'.1 hchain).2
        (fun t ht => by
          have h2 := (List.chain'_cons'.1 hchain).1 t ht
          omega)
        (fun t ht => hsz t (List.mem_cons_of_mem _ ht))
        (by push_cast; omega)
        (by
          rw [segsTotal_cons] at hhi
          push_cast at hhi ⊢
          omega)
        hws

theorem readBytes_record (o : Nat) (b : List Nat) :
    readBytes (record o b) 16 b.length = b := by
  have h : record o b = (leBytes 8 o ++ leBytes 8 b.length) ++ b ++ [] := by
    rw [record, List.append_nil]
  rw [h]
  have h16 : (16 : Nat) = (leBytes 8 o ++ leBytes 8 b.length).length := by
    simp [leBytes_length]
  rw [h16, readBytes_at]

theorem segFileReadAt_one_frame (r : List Nat) (blen : Nat)
    (hr : 1 ≤ r.length) (hb : 1 ≤ blen) (hr63 : r.length < 2 ^ 63) :
    segFileReadAt ⟨record 0 r, 16 + r.length, r.length, [⟨0, r.length, 16, []⟩], false⟩
      0 (blen : Int) = [⟨0, r.length, 16, r⟩] := by
  rw [segFileReadAt_exact _ _ _ (by simp) (le_refl _) (by norm_num)
    (by
      intro s hs
      dsimp only at hs
      rw [List.mem_singleton] at hs
      subst hs
      dsimp only
      omega)]
  dsimp only
  rw [List.filter_cons_of_pos
    (by
      simp only [segIntersects, Bool.and_eq_true, decide_eq_true_eq]
      exact ⟨by push_cast; omega, by push_cast; omega⟩)]
  rw [List.filter_nil, List.map_cons, List.map_nil]
  rw [fill]
  dsimp only
  rw [readBytes_record]

theorem fileReadAt_pair_smaller (p q : List Nat) (sz : Int) (A B : SegFile)
    (hp : 1 ≤ p.length) (hpq : p.length < q.length) (hp63 : p.length < 2 ^ 63)
    (hsz : ¬ (0 : Int) > sz)
    (hA : segFileReadAt A 0 (p.length : Int) = [⟨0, p.length, 16, p⟩])
    (hB : segFileReadAt B 0 (p.length : Int) = [⟨0, q.length, 16, q⟩]) :
    fileReadAt ⟨[A, B], sz⟩ p.length 0 = some (p.length, p, false) ∧
    fileReadAt ⟨[B, A], sz⟩ p.length 0 = some (p.length, p, false) := by
  have hm := mergeSegs_pair_smaller ⟨0, p.length, 16, p⟩ ⟨0, q.length, 16, q⟩ rfl hpq
  have hcopy : copyLoop [(⟨0, p.length, 16, p⟩ : Seg), ⟨0, q.length, 16, q⟩]
      (List.replicate p.length 0) 0 0 = some (p.length, p) := by
    rw [copyLoop_head_exact ⟨0, p.length, 16, p⟩ [⟨0, q.length, 16, q⟩]
      (List.replicate p.length 0) 0 0 rfl rfl (by simp) hp (by dsimp only; omega) hp63]
    simp
  constructor
  · rw [fileReadAt_two A B sz p.length 0 hsz, hA, hB, hm.1, hcopy]
    rfl
  · rw [fileReadAt_two B A sz p.length 0 hsz, hB, hA, hm.2, hcopy]
    rfl

/-- C2 counterexample: with a 2-byte frame and a 5-byte frame both covering
logical offset 0 (one per shard), reading the overlapping range returns the
bytes of the SMALLER frame, not the larger one the claim states: the merge
comparison `m[i].size == n[j].size || m[i].size > n[j].size` places the
larger frame later, and the copy loop takes the bytes of the first frame
covering each position. -/
theorem c2_counterexample :
    fileReadAt (fileWriteAt (fileWriteAt freshFile 0 [1, 2] 0).1 1 [3, 4, 5, 6, 7] 0).1 2 0
      = some (2, [1, 2], false) ∧
    [1, 2] ≠ List.take 2 [3, 4, 5, 6, 7] := by
  constructor
  · decide
  · decide

/-- C2 amended: for two frames written at the same logical offset 0 on the
two different shards (in either order), the read over the smaller frame's
range returns the SMALLER frame's bytes: at equal offsets the merge places
the smaller frame first and the copy loop consumes frames in order, so the
smaller frame's bytes win on the overlap.  The tie-break is indeed a
deterministic total order, but it prefers the smaller frame, not the
larger. -/
theorem c2_amended (p q : List Nat) (i : Nat) (hi : i < 2)
    (hp : 1 ≤ p.length) (hpq : p.length < q.length) (hq63 : q.length < 2 ^ 63) :
    fileReadAt (fileWriteAt (fileWriteAt freshFile i p 0).1 (1 - i) q 0).1 p.length 0
      = some (p.length, p, false) := by
  have hp63 : p.length < 2 ^ 63 := by omega
  have hq1 : 1 ≤ q.length := by omega
  have hWp := segFileWriteAt_spec ⟨[], 0, 0, [], false⟩ p 0 rfl (by omega)
  have hWq := segFileWriteAt_spec ⟨[], 0, 0, [], false⟩ q 0 rfl (by omega)
  dsimp only at hWp hWq
  simp only [Nat.cast_zero, Nat.zero_add, List.nil_append] at hWp hWq
  have hsA := segFileReadAt_one_frame p p.length hp hp hp63
  have hsB := segFileReadAt_one_frame q p.length hq1 hp hq63
  match i, hi with
  | 0, _ =>
    have hstate : (fileWriteAt (fileWriteAt freshFile 0 p 0).1 (1 - 0) q 0).1
        = ⟨[(segFileWriteAt ⟨[], 0, 0, [], false⟩ p 0).1,
            (segFileWriteAt ⟨[], 0, 0, [], false⟩ q 0).1],
           0 + (p.length : Int) + (q.length : Int)⟩ := rfl
    rw [hstate, hWp, hWq]
    dsimp only
    exact (fileReadAt_pair_smaller p q (0 + (p.length : Int) + (q.length : Int)) _ _
      hp hpq hp63 (by push_cast; omega) hsA hsB).1
  | 1, _ =>
    have hstate : (fileWriteAt (fileWriteAt freshFile 1 p 0).1 (1 - 1) q 0).1
        = ⟨[(segFileWriteAt ⟨[], 0, 0, [], false⟩ q 0).1,
            (segFileWriteAt ⟨[], 0, 0, [], false⟩ p 0).1],
           0 + (p.length : Int) + (q.length : Int)⟩ := rfl
    rw [hstate, hWp, hWq]
    dsimp only
    exact (fileReadAt_pair_smaller p q (0 + (p.length : Int) + (q.length : Int)) _ _
      hp hpq hp63 (by push_cast; omega) hsA hsB).2

/-- C2 witness: the amended overlap rule at concrete payloads `[1, 2]` and
`[3, 4, 5, 6, 7]`, the smaller one written to shard 0. -/
theorem c2_witness :
    fileReadAt (fileWriteAt (fileWriteAt freshFile 0 [1, 2] 0).1 (1 - 0) [3, 4, 5, 6, 7] 0).1
      (List.length [1, 2]) 0 = some (List.length [1, 2], [1, 2], false) :=
  c2_amended [1, 2] [3, 4, 5, 6, 7] 0 (by decide) (by decide) (by decide) (by decide)

theorem annot_lens (ws : List (Nat × List Nat)) : ∀ base : Nat,
    ((annot base ws).map fun r => r.payload.length).sum = totalLen ws := by
  induction ws with
  | nil =>
    intro base
    rfl
  | cons w rest ih =>
    intro base
    obtain ⟨i, b⟩ := w
    rw [annot, List.map_cons, List.sum_cons, ih, totalLen_cons]

theorem buildAll_head_zero (ws : List (Nat × List Nat)) (s : Seg)
    (hs : (buildAll 0 0 (annot 0 ws)).head? = some s) : (s.off : Int) = 0 := by
  cases hann : annot 0 ws with
  | nil =>
    rw [hann, buildAll] at hs
    simp at hs
  | cons r rest =>
    rw [hann] at hs
    obtain ⟨hd, c0', c1', heq, e1, _, _⟩ := buildAll_cons_shape r rest 0 0
    rw [heq, List.head?_cons, Option.some_inj] at hs
    subst hs
    have hoff0 : r.off = 0 := by
      cases ws with
      | nil =>
        rw [annot] at hann
        simp at hann
      | cons w ws2 =>
        obtain ⟨iw, bw⟩ := w
        rw [annot] at hann
        rw [List.cons.injEq] at hann
        rw [← hann.1]
    rw [e1, hoff0]
    simp

/-- C1 counterexample: a single 5-byte write at logical offset 100 (trivially
a sequence of non-overlapping writes at increasing offsets).  Reading back
the covered range `[100, 105)` does not return the payload: `File.WriteAt`
grows `size` only by `len(b)`, so `size = 5 < 100` and the read signals
end-of-data with 0 bytes. -/
theorem c1_counterexample :
    fileReadAt (fileWriteAt freshFile 0 [1, 2, 3, 4, 5] 100).1 5 100
      = some (0, [0, 0, 0, 0, 0], true) ∧
    ¬ fileReadAt (fileWriteAt freshFile 0 [1, 2, 3, 4, 5] 100).1 5 100
      = some (5, [1, 2, 3, 4, 5], false) := by
  constructor
  · decide
  · decide

/-- C1 amended: the round trip holds for CONTIGUOUS write sequences starting
at logical offset 0 (each nonempty payload written exactly where the previous
one ended), for any assignment of writes to the two shards: reading the full
covered range `[0, totalLen)` returns exactly the concatenation of the
payloads.  For non-contiguous (merely non-overlapping, increasing) writes
the claim fails, because `size` tracks only the sum of payload lengths. -/
theorem c1_amended (ws : List (Nat × List Nat))
    (hsh : ∀ w ∈ ws, w.1 < 2) (hne : ∀ w ∈ ws, 1 ≤ w.2.length)
    (hbound : totalLen ws < 2 ^ 63) :
    fileReadAt (seqWrites freshFile 0 ws) (totalLen ws) 0
      = some (totalLen ws, concatPayloads ws, false) := by
  obtain ⟨A, B, hst, hmerge⟩ := merged_query ws hsh hne hbound 0 (totalLen ws)
    (le_refl _) (by norm_num)
  rw [hst]
  rw [fileReadAt_two A B _ (totalLen ws) 0 (by push_cast; omega)]
  rw [hmerge]
  have hfs : (buildAll 0 0 (annot 0 ws)).filter (segIntersects 0 (totalLen ws : Int))
      = buildAll 0 0 (annot 0 ws) := by
    rw [List.filter_eq_self]
    intro s hs
    obtain ⟨r, hr, e1, e2, _⟩ := buildAll_mem (annot 0 ws) 0 0 s hs
    obtain ⟨⟨w, hw, _, hpl⟩, hlo, hhi⟩ := annot_mem ws 0 r hr
    have hn : 1 ≤ r.payload.length := by
      rw [hpl]
      exact hne w hw
    simp only [segIntersects, Bool.and_eq_true, decide_eq_true_eq]
    refine ⟨by push_cast; omega, by push_cast; omega⟩
  rw [hfs]
  have hdata : ∀ s ∈ buildAll 0 0 (annot 0 ws), s.data.length = s.size := by
    intro s hs
    obtain ⟨r, hr, _, e2, e3⟩ := buildAll_mem _ _ _ s hs
    rw [e3, e2]
  have hb63 : ∀ s ∈ buildAll 0 0 (annot 0 ws), s.off < 2 ^ 63 ∧ s.size < 2 ^ 63 := by
    intro s hs
    obtain ⟨r, hr, e1, e2, _⟩ := buildAll_mem _ _ _ s hs
    obtain ⟨_, _, hhi⟩ := annot_mem ws 0 r hr
    constructor
    · omega
    · omega
  have hst2 : segsTotal (buildAll 0 0 (annot 0 ws)) = totalLen ws := by
    rw [segsTotal_buildAll (annot 0 ws) 0 0, annot_lens]
  have hlen : (List.replicate (totalLen ws) 0).length
      = 0 + segsTotal (buildAll 0 0 (annot 0 ws)) := by
    rw [hst2]
    simp
  rw [copyLoop_exact (buildAll 0 0 (annot 0 ws)) (List.replicate (totalLen ws) 0) 0 0
    (buildAll_chain_contig _ 0 0 (annot_chain ws 0)) (buildAll_head_zero ws)
    hdata hb63 hlen]
  rw [concatData_buildAll (annot 0 ws) 0 0, annot_payloads ws 0]
  simp [concatPayloads]

/-- C1 witness: the amended round trip for two contiguous writes, `[1, 2]`
on shard 0 followed by `[3]` on shard 1. -/
theorem c1_witness :
    fileReadAt (seqWrites freshFile 0 [(0, [1, 2]), (1, [3])])
      (totalLen [(0, [1, 2]), (1, [3])]) 0
      = some (totalLen [(0, [1, 2]), (1, [3])],
          concatPayloads [(0, [1, 2]), (1, [3])], false) :=
  c1_amended [(0, [1, 2]), (1, [3])] (by decide) (by decide) (by decide)

theorem fileReadAt_window_safe (ws : List (Nat × List Nat))
    (hsh : ∀ w ∈ ws, w.1 < 2) (hne : ∀ w ∈ ws, 1 ≤ w.2.length)
    (hbound : totalLen ws < 2 ^ 63) (blen : Nat) (woff : Int)
    (h0 : 0 ≤ woff) (hlt : woff < (totalLen ws : Int)) (hb : 1 ≤ blen) :
    ∃ n buf, fileReadAt (seqWrites freshFile 0 ws) blen woff = some (n, buf, false) ∧
      1 ≤ n ∧ n ≤ blen ∧ buf.length = blen := by
  obtain ⟨A, B, hst, hmerge⟩ := merged_query ws hsh hne hbound woff blen h0 (by omega)
  rw [hst, fileReadAt_two A B _ blen woff (by push_cast; omega), hmerge]
  have hGchain := buildAll_chain_contig (annot 0 ws) 0 0 (annot_chain ws 0)
  have hGsz : ∀ s ∈ buildAll 0 0 (annot 0 ws), 1 ≤ s.size := by
    intro s hs
    obtain ⟨r, hr, _, e2, _⟩ := buildAll_mem _ _ _ s hs
    obtain ⟨⟨w, hw, _, hpl⟩, _, _⟩ := annot_mem ws 0 r hr
    rw [e2, hpl]
    exact hne w hw
  have hst2 : segsTotal (buildAll 0 0 (annot 0 ws)) = totalLen ws := by
    rw [segsTotal_buildAll (annot 0 ws) 0 0, annot_lens]
  obtain ⟨hFchain, hFhead, hFne⟩ := filter_window (buildAll 0 0 (annot 0 ws)) 0 woff blen
    hGchain
    (fun s hs => by
      have h2 := buildAll_head_zero ws s hs
      exact_mod_cast h2)
    hGsz (by push_cast; omega)
    (by rw [hst2]; push_cast; omega) (by push_cast; omega)
  obtain ⟨m, b2, heq, hm0, hm1, hb2, hstrict⟩ := copyLoop_safe
    ((buildAll 0 0 (annot 0 ws)).filter (segIntersects woff (blen : Int)))
    (List.replicate blen 0) woff 0
    hFchain
    (fun s hs => hFhead s hs)
    (fun s hs => by
      obtain ⟨r, hr, _, e2, e3⟩ := buildAll_mem _ _ _ s (List.mem_of_mem_filter hs)
      rw [e3, e2])
    (fun s hs => hGsz s (List.mem_of_mem_filter hs))
    (fun s hs => by
      obtain ⟨r, hr, e1, e2, _⟩ := buildAll_mem _ _ _ s (List.mem_of_mem_filter hs)
      obtain ⟨_, _, hhi⟩ := annot_mem ws 0 r hr
      exact ⟨by omega, by omega⟩)
    (Nat.zero_le _)
  refine ⟨m, b2, ?_, ?_, ?_, ?_⟩
  · rw [heq]
    rfl
  · exact hstrict hFne (by simpa using hb)
  · simpa using hm1
  · simpa using hb2

theorem fileReadAt_at_extent (ws : List (Nat × List Nat))
    (hsh : ∀ w ∈ ws, w.1 < 2) (hne : ∀ w ∈ ws, 1 ≤ w.2.length)
    (hbound : totalLen ws < 2 ^ 63) (blen : Nat) :
    fileReadAt (seqWrites freshFile 0 ws) blen (totalLen ws : Int)
      = some (0, List.replicate blen 0, false) := by
  obtain ⟨A, B, hst, hmerge⟩ := merged_query ws hsh hne hbound (totalLen ws) blen
    (by push_cast; omega) (by push_cast; omega)
  rw [hst, fileReadAt_two A B _ blen _ (by push_cast; omega), hmerge]
  have hfnil : (buildAll 0 0 (annot 0 ws)).filter
      (segIntersects ((totalLen ws : Nat) : Int) (blen : Int)) = [] := by
    rw [List.filter_eq_nil_iff]
    intro s hs
    obtain ⟨r, hr, e1, e2, _⟩ := buildAll_mem _ _ _ s hs
    obtain ⟨_, _, hhi⟩ := annot_mem ws 0 r hr
    simp only [segIntersects, Bool.and_eq_true, decide_eq_true_eq, not_and]
    intro hc
    push_cast at hc
    omega
  rw [hfnil]
  rfl

/-- C10 counterexample: a sparse write (offset 3, one byte) leaves a gap;
reading window `[0, 4)` from this reachable state makes the copy loop
compute `segOff = 0 - 3 < 0`, so `s.data[segOff:]` panics (modelled `none`),
even though the read offset 0 is not past the store's known size. -/
theorem c10_counterexample :
    fileReadAt (fileWriteAt freshFile 0 [7] 3).1 4 0 = none ∧
    ¬ (0 : Int) > (fileWriteAt freshFile 0 [7] 3).1.size := by
  constructor
  · decide
  · decide

/-- C10 amended: on CONTIGUOUS stores (the claim's arbitrary sparse states
do panic, see the counterexample), every read whose offset lies in
`[0, totalLen]` is safe: the copy step performs only in-bounds accesses,
never panics, and returns `n` with `0 ≤ n ≤ len(buffer)` and the buffer
length unchanged. -/
theorem c10_amended (ws : List (Nat × List Nat))
    (hsh : ∀ w ∈ ws, w.1 < 2) (hne : ∀ w ∈ ws, 1 ≤ w.2.length)
    (hbound : totalLen ws < 2 ^ 63) (blen : Nat) (woff : Int)
    (h0 : 0 ≤ woff) (hle : woff ≤ (totalLen ws : Int)) :
    ∃ n buf, fileReadAt (seqWrites freshFile 0 ws) blen woff = some (n, buf, false) ∧
      n ≤ blen ∧ buf.length = blen := by
  by_cases hblen : blen = 0
  · subst hblen
    obtain ⟨A, B, hst, hmerge⟩ := merged_query ws hsh hne hbound woff ((0 : Nat) : Int)
      h0 (by omega)
    rw [hst, fileReadAt_two A B _ 0 woff (by push_cast; omega), hmerge]
    refine ⟨0, List.replicate 0 0, ?_, le_refl _, rfl⟩
    rw [copyLoop_stop _ _ _ _ (by simp)]
    rfl
  · by_cases hwt : woff = (totalLen ws : Int)
    · rw [hwt]
      exact ⟨0, List.replicate blen 0, fileReadAt_at_extent ws hsh hne hbound blen,
        Nat.zero_le _, by simp⟩
    · obtain ⟨n, buf, heq, _, h2, h3⟩ := fileReadAt_window_safe ws hsh hne hbound blen woff
        h0 (by omega) (by omega)
      exact ⟨n, buf, heq, h2, h3⟩

/-- C10 witness: the amended safety at a concrete contiguous store (frames
`[7]` on shard 0 and `[8, 9]` on shard 1), read offset 1, buffer length 2. -/
theorem c10_witness :
    ∃ n buf, fileReadAt (seqWrites freshFile 0 [(0, [7]), (1, [8, 9])]) 2 1
      = some (n, buf, false) ∧ n ≤ 2 ∧ buf.length = 2 :=
  c10_amended [(0, [7]), (1, [8, 9])] (by decide) (by decide) (by decide) 2 1
    (by norm_num) (by decide)

end Mergefs
